import Mathlib

/-!
# Virtual node tree (BKE_virtual_node_tree_cxx.h)

A shallow embedding of the `BKE::VirtualNodeTree` snapshot of a node graph and of its
query surface, followed by theorems about it.

Conventions of the embedding.
* Ownership (tree -> nodes -> sockets) is by value: a `VirtualNode` holds its sockets.
* The remaining `VirtualSocket *` and `VirtualNode *` values (link endpoints, connectivity
  lists, multimap values) are handles: a `SocketRef` names a socket by the position of its
  node in `m_nodes`, its side and its position on that side; a `NodeRef` is the position of
  a node in `m_nodes`.
* A member function that can be stopped by a check returns `Except Failure`.
* `uint` values are `Nat`: the header compares and indexes with them and does no arithmetic
  on them.
-/

namespace BKE

/-! ## Failures -/

/-- Ways in which a call can stop instead of returning. -/
inductive Failure where
  /-- A `BLI_assert` whose condition is false. -/
  | assertion
  /-- An array access at an index that is not smaller than the size of the array. -/
  | out_of_bounds
  deriving DecidableEq, Repr

deriving instance DecidableEq for Except

/-- Modelled from the spec: `BLI_assert` (BLI_assert.h is absent). Section 7 makes it the
defensive check that catches a programming error: a false condition stops the call. -/
def BLI_assert (cond : Bool) : Except Failure Unit :=
  if cond then .ok () else .error .assertion

/-! ## Containers of BLI that the header uses -/

/-- Modelled from the spec: `BLI::StringMap<T>` (BLI_string_map.h is absent), "a table from
type-name to value", kept as an association list whose first entry for a key counts. -/
abbrev StringMap (T : Type) := List (String × T)

/-- Membership of a key in the table. -/
def StringMap.contains {T : Type} (map : StringMap T) (key : String) : Bool :=
  (List.lookup key map).isSome

/-- The table's value for `key`, or `default_value` when the table has no such key. -/
def StringMap.lookup_default {T : Type} (map : StringMap T) (key : String) (default_value : T) :
    T :=
  match List.lookup key map with
  | some v => v
  | none => default_value

/-- Modelled from the spec: `BLI::MultiMap<K, V>` (BLI_multi_map.h is absent), "a genuine
ordered multimap (insertion-order-preserving) from name to node-list". -/
abbrev MultiMap (V : Type) := List (String × List V)

/-- Append `value` to the group of `key`, opening the group when the key is new. -/
def MultiMap.add {V : Type} : MultiMap V → String → V → MultiMap V
  | [], key, value => [(key, [value])]
  | (k, vs) :: rest, key, value =>
    if k == key then (k, vs ++ [value]) :: rest
    else (k, vs) :: MultiMap.add rest key value

/-- The group of `key`; the empty group when the key is absent. -/
def MultiMap.lookup_default {V : Type} (map : MultiMap V) (key : String) : List V :=
  match List.lookup key map with
  | some vs => vs
  | none => []

/-- Checked element write `r_result[index] = value` on a `MutableArrayRef<T>`. -/
def array_set {T : Type} (r_result : List T) (index : Nat) (value : T) :
    Except Failure (List T) :=
  if index < r_result.length then .ok (r_result.set index value) else .error .out_of_bounds

/-- Checked element read `array[index]` on an `ArrayRef<T>`. -/
def array_get {T : Type} (array : List T) (index : Nat) : Except Failure T :=
  match array[index]? with
  | some x => .ok x
  | none => .error .out_of_bounds

/-! ## Authoring graph records (DNA_node_types.h) -/

/-- Modelled from the spec: the values that the direction flag of a socket is compared with
(DNA_node_types.h is absent): "Carries a direction flag (input/output)". They are the
enumerators of the C enum `eNodeSocketInOut`, which are integers: 1 and 2 in that header. -/
abbrev eNodeSocketInOut := Int

/-- Modelled from the spec: the enumerator `SOCK_IN` (DNA_node_types.h is absent), the flag
of an input pin. -/
def SOCK_IN : eNodeSocketInOut := 1

/-- Modelled from the spec: the enumerator `SOCK_OUT` (DNA_node_types.h is absent), the flag
of an output pin. -/
def SOCK_OUT : eNodeSocketInOut := 2

/-- The fields of `bNodeSocket` that the header reads. The field `in_out` is a `short`: the
type of the field does not restrict it to the two enumerators. -/
structure bNodeSocket where
  in_out : Int
  name : String
  idname : String
  identifier : String
  deriving DecidableEq, Repr

/-- The fields of `bNode` that the header and the population step read. -/
structure bNode where
  name : String
  idname : String
  inputs : List bNodeSocket
  outputs : List bNodeSocket
  deriving DecidableEq, Repr

/-! ## Handles -/

/-- Handle of a node: its position in `m_nodes`. -/
abbrev NodeRef := Nat

/-- Handle of a socket (a `VirtualSocket *`). -/
structure SocketRef where
  node : NodeRef
  is_output : Bool
  index : Nat
  deriving DecidableEq, Repr

/-! ## The records of the snapshot -/

/-- Class `VirtualSocket`. -/
structure VirtualSocket where
  m_vnode : NodeRef
  m_bsocket : bNodeSocket
  m_id : Nat
  m_direct_links : List SocketRef
  m_links : List SocketRef
  deriving DecidableEq, Repr

/-- Class `VirtualNode`. -/
structure VirtualNode where
  m_bnode : bNode
  m_inputs : List VirtualSocket
  m_outputs : List VirtualSocket
  deriving DecidableEq, Repr

/-- Class `VirtualLink`. -/
structure VirtualLink where
  m_from : SocketRef
  m_to : SocketRef
  deriving DecidableEq, Repr

/-- Class `VirtualNodeTree` (the allocator is not part of the observable state). -/
structure VirtualNodeTree where
  m_frozen : Bool := false
  m_nodes : List VirtualNode := []
  m_links : List VirtualLink := []
  m_inputs_with_links : List SocketRef := []
  m_nodes_by_idname : MultiMap NodeRef := []
  m_socket_counter : Nat := 0
  deriving DecidableEq, Repr

/-! ## VirtualSocket -/

/-- Method `VirtualSocket::is_output`. -/
def VirtualSocket.is_output (s : VirtualSocket) : Bool :=
  s.m_bsocket.in_out == SOCK_OUT

/-- Method `VirtualSocket::id`. -/
def VirtualSocket.id (s : VirtualSocket) : Except Failure Nat :=
  pure s.m_id

/-- Method `VirtualSocket::name`. -/
def VirtualSocket.name (s : VirtualSocket) : String :=
  s.m_bsocket.name

/-- Method `VirtualSocket::idname`. -/
def VirtualSocket.idname (s : VirtualSocket) : String :=
  s.m_bsocket.idname

/-! ## VirtualNode -/

/-- Method `VirtualNode::inputs`. -/
def VirtualNode.inputs (n : VirtualNode) : Except Failure (List VirtualSocket) :=
  pure n.m_inputs

/-- Method `VirtualNode::outputs`. -/
def VirtualNode.outputs (n : VirtualNode) : Except Failure (List VirtualSocket) :=
  pure n.m_outputs

/-- Method `VirtualNode::input(uint index)`. -/
def VirtualNode.input (n : VirtualNode) (index : Nat) : Except Failure VirtualSocket :=
  array_get n.m_inputs index

/-- Method `VirtualNode::output(uint index)`. -/
def VirtualNode.output (n : VirtualNode) (index : Nat) : Except Failure VirtualSocket :=
  array_get n.m_outputs index

/-- Method `VirtualNode::input(uint index, StringRef expected_name)`; `DEBUG` tells whether
the macro of that name is defined in the build. -/
def VirtualNode.input_expected (DEBUG : Bool) (n : VirtualNode) (index : Nat)
    (expected_name : String) : Except Failure VirtualSocket := do
  let vsocket ← array_get n.m_inputs index
  if DEBUG then
    let actual_name := vsocket.name
    BLI_assert (actual_name == expected_name)
  return vsocket

/-- Method `VirtualNode::output(uint index, StringRef expected_name)`. -/
def VirtualNode.output_expected (DEBUG : Bool) (n : VirtualNode) (index : Nat)
    (expected_name : String) : Except Failure VirtualSocket := do
  let vsocket ← array_get n.m_outputs index
  if DEBUG then
    let actual_name := vsocket.name
    BLI_assert (actual_name == expected_name)
  return vsocket

/-- Method `VirtualNode::idname`. -/
def VirtualNode.idname (n : VirtualNode) : String :=
  n.m_bnode.idname

/-- Method `VirtualNode::name`. -/
def VirtualNode.name (n : VirtualNode) : String :=
  n.m_bnode.name

/-! ## VirtualNodeTree: the query surface of the header -/

namespace VirtualNodeTree

/-- Method `VirtualNodeTree::nodes`. -/
def nodes (t : VirtualNodeTree) : Except Failure (List VirtualNode) :=
  pure t.m_nodes

/-- Method `VirtualNodeTree::links`. -/
def links (t : VirtualNodeTree) : Except Failure (List VirtualLink) :=
  pure t.m_links

/-- Method `VirtualNodeTree::inputs_with_links`. -/
def inputs_with_links (t : VirtualNodeTree) : Except Failure (List SocketRef) := do
  BLI_assert t.m_frozen
  return t.m_inputs_with_links

/-- Method `VirtualNodeTree::nodes_with_idname`. -/
def nodes_with_idname (t : VirtualNodeTree) (idname : String) :
    Except Failure (List NodeRef) := do
  BLI_assert t.m_frozen
  return t.m_nodes_by_idname.lookup_default idname

/-- Method `VirtualNodeTree::is_frozen`. -/
def is_frozen (t : VirtualNodeTree) : Bool :=
  t.m_frozen

/-- Method `VirtualNodeTree::socket_count`. -/
def socket_count (t : VirtualNodeTree) : Except Failure Nat :=
  pure t.m_socket_counter

/-- The two inner loops of `map_socket_idnames`, over one socket array. -/
def map_socket_idnames_loop {T : Type} (map : StringMap T) (default_value : T)
    (sockets : List VirtualSocket) (r_result : List T) : Except Failure (List T) :=
  sockets.foldlM
    (fun r vsocket => array_set r vsocket.m_id (map.lookup_default vsocket.idname default_value))
    r_result

/-- Method `VirtualNodeTree::map_socket_idnames`; the returned list is `r_result` after the
call. -/
def map_socket_idnames {T : Type} (t : VirtualNodeTree) (map : StringMap T) (default_value : T)
    (r_result : List T) : Except Failure (List T) := do
  BLI_assert (r_result.length == (← t.socket_count))
  t.m_nodes.foldlM
    (fun r vnode => do
      let r ← map_socket_idnames_loop map default_value vnode.m_inputs r
      map_socket_idnames_loop map default_value vnode.m_outputs r)
    r_result

/-- All sockets of the snapshot in the order `map_socket_idnames` visits them. -/
def all_sockets (t : VirtualNodeTree) : List VirtualSocket :=
  t.m_nodes.flatMap (fun vnode => vnode.m_inputs ++ vnode.m_outputs)

end VirtualNodeTree

/-- Method `VirtualSocket::direct_links`; `t` is the snapshot `m_vnode->m_backlink`. -/
def VirtualSocket.direct_links (t : VirtualNodeTree) (s : VirtualSocket) :
    Except Failure (List SocketRef) := do
  BLI_assert t.is_frozen
  return s.m_direct_links

/-- Method `VirtualSocket::links`; `t` is the snapshot `m_vnode->m_backlink`. -/
def VirtualSocket.links (t : VirtualNodeTree) (s : VirtualSocket) :
    Except Failure (List SocketRef) := do
  BLI_assert t.is_frozen
  return s.m_links

/-! ## Population and freezing

The header only declares `add_bnode`, `add_link`, `freeze_and_index` and the three private
`initialize_*` steps; their bodies are not part of the sources at hand. The definitions of
this section follow sections 4.2 and 4.3 of the specification. -/

/-- Apply `f` to the element at position `index`; a position past the end changes nothing. -/
def modify_at {α : Type} (f : α → α) : Nat → List α → List α
  | _, [] => []
  | 0, x :: xs => f x :: xs
  | index + 1, x :: xs => x :: modify_at f index xs

/-- Map with the position of each element, positions counted from `start`. -/
def map_indexed {α β : Type} (f : Nat → α → β) : Nat → List α → List β
  | _, [] => []
  | start, x :: xs => f start x :: map_indexed f (start + 1) xs

/-- The socket a handle names, when there is one. -/
def socket_at (nodes : List VirtualNode) (r : SocketRef) : Option VirtualSocket :=
  match nodes[r.node]? with
  | none => none
  | some vnode => if r.is_output then vnode.m_outputs[r.index]? else vnode.m_inputs[r.index]?

/-- Apply `f` to the socket a handle names; a dangling handle changes nothing. -/
def modify_socket (nodes : List VirtualNode) (r : SocketRef)
    (f : VirtualSocket → VirtualSocket) : List VirtualNode :=
  modify_at
    (fun vnode =>
      if r.is_output then { vnode with m_outputs := modify_at f r.index vnode.m_outputs }
      else { vnode with m_inputs := modify_at f r.index vnode.m_inputs })
    r.node nodes

/-- Modelled from the spec: the socket record that "Add node" allocates for one authoring
pin of the node with handle `vnode`; its identity and connectivity are filled in by
freezing. -/
def new_socket (vnode : NodeRef) (bsocket : bNodeSocket) : VirtualSocket :=
  { m_vnode := vnode, m_bsocket := bsocket, m_id := 0, m_direct_links := [], m_links := [] }

namespace VirtualNodeTree

/-- Modelled from the spec: `VirtualNodeTree::add_bnode` (its body is absent). Section 4.2,
"Add node": valid only while the snapshot is unfrozen; "allocate a Node in the arena,
allocate one Socket per authoring input and output pin (preserving authoring order), append
the Node to the Snapshot's node list. Returns a stable handle to the new Node." -/
def add_bnode (t : VirtualNodeTree) (bnode : bNode) :
    Except Failure (NodeRef × VirtualNodeTree) := do
  BLI_assert (!t.m_frozen)
  let vnode_ref : NodeRef := t.m_nodes.length
  let vnode : VirtualNode :=
    { m_bnode := bnode
      m_inputs := bnode.inputs.map (new_socket vnode_ref)
      m_outputs := bnode.outputs.map (new_socket vnode_ref) }
  return (vnode_ref, { t with m_nodes := t.m_nodes ++ [vnode] })

/-- Modelled from the spec: `VirtualNodeTree::add_link` (its body is absent). Section 4.2,
"Add link": valid only while the snapshot is unfrozen; "given two Socket handles
(conceptually: a source and a destination), allocate a Link, append it to the Snapshot's
link list"; the direction and the ownership of the two sockets are not checked. -/
def add_link (t : VirtualNodeTree) (a b : SocketRef) : Except Failure VirtualNodeTree := do
  BLI_assert (!t.m_frozen)
  return { t with m_links := t.m_links ++ [{ m_from := a, m_to := b }] }

/-- Give the sockets of one array the identities `counter`, `counter + 1`, ... -/
def assign_ids (counter : Nat) : List VirtualSocket → List VirtualSocket × Nat
  | [] => ([], counter)
  | vsocket :: rest =>
    let (rest_indexed, counter_end) := assign_ids (counter + 1) rest
    ({ vsocket with m_id := counter } :: rest_indexed, counter_end)

/-- Give the sockets of every node their identities: "in node-list order, inputs before
outputs per node". -/
def assign_node_ids (counter : Nat) : List VirtualNode → List VirtualNode × Nat
  | [] => ([], counter)
  | vnode :: rest =>
    let (inputs, counter_inputs) := assign_ids counter vnode.m_inputs
    let (outputs, counter_outputs) := assign_ids counter_inputs vnode.m_outputs
    let (rest_indexed, counter_end) := assign_node_ids counter_outputs rest
    ({ vnode with m_inputs := inputs, m_outputs := outputs } :: rest_indexed, counter_end)

/-- Modelled from the spec: step 1 of section 4.3, "Assigns a dense socket identity to every
input and output socket of every node", the socket counter advancing by one per socket. -/
def initialize_socket_ids (t : VirtualNodeTree) : VirtualNodeTree :=
  let (nodes, counter) := assign_node_ids t.m_socket_counter t.m_nodes
  { t with m_nodes := nodes, m_socket_counter := counter }

/-- Modelled from the spec: `VirtualNodeTree::initialize_direct_links` (its body is absent).
Step 2 of section 4.3: "for each authored Link, record the destination input's direct
predecessor(s)", fan-in being kept as a list. -/
def initialize_direct_links (t : VirtualNodeTree) : VirtualNodeTree :=
  { t with
    m_nodes := t.m_links.foldl
      (fun nodes vlink =>
        modify_socket nodes vlink.m_to
          (fun vsocket => { vsocket with m_direct_links := vsocket.m_direct_links ++ [vlink.m_from] }))
      t.m_nodes }

/-- The effective producers of the input socket `r`: each direct predecessor that sits on a
pass-through node is replaced by the effective producers of that node's inputs. `visited` is
the visitation guard (a pass-through node met a second time contributes nothing) and `fuel`
bounds the depth of the walk. -/
def find_producers (pass_through : bNode → Bool) (nodes : List VirtualNode) :
    Nat → List NodeRef → SocketRef → List SocketRef
  | 0, _, _ => []
  | fuel + 1, visited, r =>
    match socket_at nodes r with
    | none => []
    | some vsocket =>
      vsocket.m_direct_links.flatMap (fun other =>
        match nodes[other.node]? with
        | none => [other]
        | some vnode =>
          if pass_through vnode.m_bnode then
            if other.node ∈ visited then []
            else
              (List.range vnode.m_inputs.length).flatMap (fun index =>
                find_producers pass_through nodes fuel (other.node :: visited)
                  { node := other.node, is_output := false, index := index })
          else [other])

/-- Modelled from the spec: `VirtualNodeTree::initialize_links` (its body is absent). Step 3
of section 4.3: "Resolves logical (resolved) connectivity, collapsing chains through
pass-through nodes", with a visitation guard so that cyclic chains terminate. The criterion
for a pass-through node is left open by the specification and is the parameter
`pass_through`. -/
def initialize_links (pass_through : bNode → Bool) (t : VirtualNodeTree) : VirtualNodeTree :=
  { t with
    m_nodes := map_indexed
      (fun node_index vnode =>
        { vnode with
          m_inputs := map_indexed
            (fun index vsocket =>
              { vsocket with
                m_links := find_producers pass_through t.m_nodes (t.m_nodes.length + 1) []
                  { node := node_index, is_output := false, index := index } })
            0 vnode.m_inputs })
      0 t.m_nodes }

/-- Modelled from the spec: step 4 of section 4.3, "Builds the inputs with at least one link
list", in node order and, within a node, in input order. -/
def initialize_inputs_with_links (t : VirtualNodeTree) : VirtualNodeTree :=
  { t with
    m_inputs_with_links := (map_indexed
      (fun node_index vnode =>
        (map_indexed
          (fun index vsocket =>
            if vsocket.m_direct_links.isEmpty then []
            else [({ node := node_index, is_output := false, index := index } : SocketRef)])
          0 vnode.m_inputs).flatten)
      0 t.m_nodes).flatten }

/-- Add the nodes of `nodes`, whose handles start at `start`, to the multimap. -/
def add_nodes_by_idname (map : MultiMap NodeRef) : Nat → List VirtualNode → MultiMap NodeRef
  | _, [] => map
  | start, vnode :: rest => add_nodes_by_idname (map.add vnode.idname start) (start + 1) rest

/-- Modelled from the spec: `VirtualNodeTree::initialize_nodes_by_idname` (its body is
absent). Step 5 of section 4.3: "Builds the type-name -> nodes multimap (insertion order
within each name group preserved)". -/
def initialize_nodes_by_idname (t : VirtualNodeTree) : VirtualNodeTree :=
  { t with m_nodes_by_idname := add_nodes_by_idname t.m_nodes_by_idname 0 t.m_nodes }

/-- Modelled from the spec: `VirtualNodeTree::freeze_and_index` (its body is absent).
Section 4.3: a single operation, guarded against a second call, that runs steps 1 to 5 and
then marks the snapshot frozen. -/
def freeze_and_index (pass_through : bNode → Bool) (t : VirtualNodeTree) :
    Except Failure VirtualNodeTree := do
  BLI_assert (!t.m_frozen)
  let t := t.initialize_socket_ids
  let t := t.initialize_direct_links
  let t := t.initialize_links pass_through
  let t := t.initialize_inputs_with_links
  let t := t.initialize_nodes_by_idname
  return { t with m_frozen := true }

end VirtualNodeTree

/-- One call of the population phase. -/
inductive PopulationCall where
  | add_bnode (bnode : bNode)
  | add_link (a b : SocketRef)
  deriving DecidableEq, Repr

/-- Run one population call on the snapshot. -/
def PopulationCall.run (t : VirtualNodeTree) : PopulationCall → Except Failure VirtualNodeTree
  | .add_bnode bnode => do
    let (_, t) ← t.add_bnode bnode
    return t
  | .add_link a b => t.add_link a b

/-- A newly constructed snapshot, populated by `calls` in order and then frozen. -/
def build (pass_through : bNode → Bool) (calls : List PopulationCall) :
    Except Failure VirtualNodeTree := do
  let t ← calls.foldlM PopulationCall.run ({} : VirtualNodeTree)
  t.freeze_and_index pass_through

/-- The authoring nodes that `calls` insert, in insertion order. -/
def inserted_bnodes : List PopulationCall → List bNode
  | [] => []
  | .add_bnode bnode :: rest => bnode :: inserted_bnodes rest
  | .add_link _ _ :: rest => inserted_bnodes rest

/-- The identities of the sockets of one node, inputs first. -/
def node_socket_ids (vnode : VirtualNode) : List Nat :=
  (vnode.m_inputs ++ vnode.m_outputs).map (fun s => s.m_id)

/-- The identities of all sockets of a node list, in visiting order. -/
def socket_ids (nodes : List VirtualNode) : List Nat :=
  (nodes.map node_socket_ids).flatten

/-! ## The methods as calls on a snapshot

A call of a method runs on the state of the snapshot, which owns its nodes and their sockets,
and ends with an outcome and with the state that it leaves behind. A node or a socket is
reached from the state through its handle, as the method reaches it through `this`. -/

/-- A call on a snapshot: from the state before the call to its outcome and the state after
it. -/
abbrev Call (α : Type) := ExceptT Failure (StateM VirtualNodeTree) α

/-- A check or a computation that reads nothing but its arguments, within a call. -/
def Call.of_except {α : Type} (r : Except Failure α) : Call α :=
  ExceptT.mk (pure r)

/-- The node behind a `VirtualNode *`, read from the state. -/
def Call.deref_node (vnode : NodeRef) : Call VirtualNode := do
  Call.of_except (array_get (← get).m_nodes vnode)

/-- The socket behind a `VirtualSocket *`, read from the state. -/
def Call.deref_socket (vsocket : SocketRef) : Call VirtualSocket := do
  match socket_at (← get).m_nodes vsocket with
  | some s => return s
  | none => throw .out_of_bounds

namespace Calls

/-- Method `VirtualNodeTree::nodes`. -/
def VirtualNodeTree.nodes : Call (List VirtualNode) := do
  return (← get).m_nodes

/-- Method `VirtualNodeTree::links`. -/
def VirtualNodeTree.links : Call (List VirtualLink) := do
  return (← get).m_links

/-- Method `VirtualNodeTree::inputs_with_links`. -/
def VirtualNodeTree.inputs_with_links : Call (List SocketRef) := do
  Call.of_except (BLI_assert (← get).m_frozen)
  return (← get).m_inputs_with_links

/-- Method `VirtualNodeTree::nodes_with_idname`. -/
def VirtualNodeTree.nodes_with_idname (idname : String) : Call (List NodeRef) := do
  Call.of_except (BLI_assert (← get).m_frozen)
  return (← get).m_nodes_by_idname.lookup_default idname

/-- Method `VirtualNodeTree::is_frozen`. -/
def VirtualNodeTree.is_frozen : Call Bool := do
  return (← get).m_frozen

/-- Method `VirtualNodeTree::socket_count`, a `const` method. -/
def VirtualNodeTree.socket_count : Call Nat := do
  return (← get).m_socket_counter

/-- Method `VirtualNodeTree::map_socket_idnames`, a `const` method: it reads the snapshot and
writes to the array `r_result` of its caller; the outcome is that array after the call. -/
def VirtualNodeTree.map_socket_idnames {T : Type} (map : StringMap T) (default_value : T)
    (r_result : List T) : Call (List T) := do
  Call.of_except ((← get).map_socket_idnames map default_value r_result)

/-- Method `VirtualNode::inputs`. -/
def VirtualNode.inputs (vnode : NodeRef) : Call (List VirtualSocket) := do
  return (← Call.deref_node vnode).m_inputs

/-- Method `VirtualNode::outputs`. -/
def VirtualNode.outputs (vnode : NodeRef) : Call (List VirtualSocket) := do
  return (← Call.deref_node vnode).m_outputs

/-- Method `VirtualSocket::id`. -/
def VirtualSocket.id (vsocket : SocketRef) : Call Nat := do
  return (← Call.deref_socket vsocket).m_id

/-- Method `VirtualSocket::direct_links`; `m_vnode->m_backlink` is the snapshot. -/
def VirtualSocket.direct_links (vsocket : SocketRef) : Call (List SocketRef) := do
  let _ ← Call.deref_socket vsocket
  Call.of_except (BLI_assert (← VirtualNodeTree.is_frozen))
  return (← Call.deref_socket vsocket).m_direct_links

/-- Method `VirtualSocket::links`; `m_vnode->m_backlink` is the snapshot. -/
def VirtualSocket.links (vsocket : SocketRef) : Call (List SocketRef) := do
  let _ ← Call.deref_socket vsocket
  Call.of_except (BLI_assert (← VirtualNodeTree.is_frozen))
  return (← Call.deref_socket vsocket).m_links

end Calls

/-- A call of the query surface, with its arguments; a node or a socket that the call is made
on is named by its handle. -/
inductive Query (T : Type) where
  | nodes
  | links
  | inputs_with_links
  | nodes_with_idname (idname : String)
  | is_frozen
  | socket_count
  | node_inputs (vnode : NodeRef)
  | node_outputs (vnode : NodeRef)
  | socket_id (vsocket : SocketRef)
  | socket_direct_links (vsocket : SocketRef)
  | socket_links (vsocket : SocketRef)
  | map_socket_idnames (map : StringMap T) (default_value : T) (r_result : List T)

/-- What a call of the query surface hands back; for `map_socket_idnames` the result array
after the call. -/
inductive Answer (T : Type) where
  | nodes (vnodes : List VirtualNode)
  | links (vlinks : List VirtualLink)
  | sockets (vsockets : List VirtualSocket)
  | socket_refs (refs : List SocketRef)
  | node_refs (refs : List NodeRef)
  | flag (b : Bool)
  | number (n : Nat)
  | array (r_result : List T)

/-- The method that a query calls. -/
def Query.call {T : Type} : Query T → Call (Answer T)
  | .nodes => Answer.nodes <$> Calls.VirtualNodeTree.nodes
  | .links => Answer.links <$> Calls.VirtualNodeTree.links
  | .inputs_with_links => Answer.socket_refs <$> Calls.VirtualNodeTree.inputs_with_links
  | .nodes_with_idname idname =>
    Answer.node_refs <$> Calls.VirtualNodeTree.nodes_with_idname idname
  | .is_frozen => Answer.flag <$> Calls.VirtualNodeTree.is_frozen
  | .socket_count => Answer.number <$> Calls.VirtualNodeTree.socket_count
  | .node_inputs vnode => Answer.sockets <$> Calls.VirtualNode.inputs vnode
  | .node_outputs vnode => Answer.sockets <$> Calls.VirtualNode.outputs vnode
  | .socket_id vsocket => Answer.number <$> Calls.VirtualSocket.id vsocket
  | .socket_direct_links vsocket =>
    Answer.socket_refs <$> Calls.VirtualSocket.direct_links vsocket
  | .socket_links vsocket => Answer.socket_refs <$> Calls.VirtualSocket.links vsocket
  | .map_socket_idnames map default_value r_result =>
    Answer.array <$> Calls.VirtualNodeTree.map_socket_idnames map default_value r_result

/-- Run a query on the snapshot `t`: the outcome of the call and the snapshot after it. -/
def Query.run {T : Type} (q : Query T) (t : VirtualNodeTree) :
    Except Failure (Answer T) × VirtualNodeTree :=
  Id.run (StateT.run (ExceptT.run q.call) t)

/-- Whether a query can be answered on the snapshot `t`: the node or the socket that it is
made on belongs to `t`, and for `map_socket_idnames` the array has one slot per socket and
every socket identity is below the socket count. -/
def Query.applicable {T : Type} (t : VirtualNodeTree) : Query T → Bool
  | .node_inputs vnode => decide (vnode < t.m_nodes.length)
  | .node_outputs vnode => decide (vnode < t.m_nodes.length)
  | .socket_id vsocket => (socket_at t.m_nodes vsocket).isSome
  | .socket_direct_links vsocket => (socket_at t.m_nodes vsocket).isSome
  | .socket_links vsocket => (socket_at t.m_nodes vsocket).isSome
  | .map_socket_idnames _ _ r_result =>
    r_result.length == t.m_socket_counter &&
      t.all_sockets.all (fun s => decide (s.m_id < t.m_socket_counter))
  | _ => true

/-! ## Examples used by the concrete statements -/

/-- An authoring socket with the given direction, name and type-name. -/
def example_bsocket (in_out : eNodeSocketInOut) (name idname : String) : bNodeSocket :=
  { in_out := in_out, name := name, idname := idname, identifier := name }

/-- The reroute criterion used by the examples. -/
def is_reroute (bnode : bNode) : Bool :=
  bnode.idname == "NodeReroute"

/-- The calls of the scenario of section 8: two nodes of two sockets each and one link
between them; exactly one socket has the type-name "TypeA". -/
def scenario_calls : List PopulationCall :=
  [ .add_bnode
      { name := "First", idname := "Add"
        inputs := [example_bsocket SOCK_IN "a" "TypeB"]
        outputs := [example_bsocket SOCK_OUT "x" "TypeA"] },
    .add_bnode
      { name := "Second", idname := "Mul"
        inputs := [example_bsocket SOCK_IN "b" "TypeB"]
        outputs := [example_bsocket SOCK_OUT "y" "TypeC"] },
    .add_link { node := 0, is_output := true, index := 0 }
      { node := 1, is_output := false, index := 0 } ]

/-- The snapshot of the scenario, frozen. -/
def scenario_tree : VirtualNodeTree :=
  match build is_reroute scenario_calls with
  | .ok t => t
  | .error _ => {}

/-- The calls that build the chain `A.out -> P1.in, P1.out -> P2.in, P2.out -> B.in`:
the four nodes in the order A, P1, P2, B, then the three links. -/
def chain_calls (A P1 P2 B : bNode) : List PopulationCall :=
  [ .add_bnode A, .add_bnode P1, .add_bnode P2, .add_bnode B,
    .add_link { node := 0, is_output := true, index := 0 }
      { node := 1, is_output := false, index := 0 },
    .add_link { node := 1, is_output := true, index := 0 }
      { node := 2, is_output := false, index := 0 },
    .add_link { node := 2, is_output := true, index := 0 }
      { node := 3, is_output := false, index := 0 } ]

/-- A node with one input and one output socket. -/
def example_relay (name idname : String) : bNode :=
  { name := name, idname := idname
    inputs := [example_bsocket SOCK_IN "Input" "NodeSocketVirtual"]
    outputs := [example_bsocket SOCK_OUT "Output" "NodeSocketVirtual"] }

/-- A node without inputs and with one output socket. -/
def example_source (name idname : String) : bNode :=
  { name := name, idname := idname, inputs := []
    outputs := [example_bsocket SOCK_OUT "Value" "NodeSocketFloat"] }

/-- A node with one input socket and without outputs. -/
def example_sink (name idname : String) : bNode :=
  { name := name, idname := idname
    inputs := [example_bsocket SOCK_IN "Value" "NodeSocketFloat"], outputs := [] }

/-- A node without sockets, of the given type-name. -/
def example_bare (idname : String) : bNode :=
  { name := idname, idname := idname, inputs := [], outputs := [] }

/-- The handles of the entries of `bnodes` whose type-name is `name`, in list order. -/
def positions_with_idname (name : String) (start : Nat) (bnodes : List bNode) : List NodeRef :=
  ((bnodes.enumFrom start).filter (fun p => p.2.idname == name)).map Prod.fst

/-- The snapshot of the scenario after its population calls and before freezing. -/
def unfrozen_tree : VirtualNodeTree :=
  match scenario_calls.foldlM PopulationCall.run ({} : VirtualNodeTree) with
  | .ok t => t
  | .error _ => {}

/-- A node with two named inputs and without outputs. -/
def example_vnode_without_outputs : VirtualNode :=
  { m_bnode := { name := "Viewer", idname := "Output", inputs := [], outputs := [] }
    m_inputs := [new_socket 0 (example_bsocket SOCK_IN "A" "NodeSocketFloat"),
      new_socket 0 (example_bsocket SOCK_IN "B" "NodeSocketFloat")]
    m_outputs := [] }

/-- A node without inputs and with one named output. -/
def example_vnode_without_inputs : VirtualNode :=
  { m_bnode := { name := "Value", idname := "Input", inputs := [], outputs := [] }
    m_inputs := []
    m_outputs := [new_socket 0 (example_bsocket SOCK_OUT "Result" "NodeSocketFloat")] }

end BKE

/-!
# OBJ import (object_obj_import.cc)

A shallow embedding of the line reader `TextLinesReader`, of the cursor `StringRefStream` and of
the parsing functions built on it.

Conventions of the embedding.
* A `StringRef` is the list of its characters.
* A `StringRefStream` is represented by the characters between `m_current` and `m_end`; moving
  `m_current` forward by `k` drops `k` characters from the front, and a returned
  `StringRef(start, m_current - start)` is the list of the characters passed since `start`.
* Loops whose number of iterations is not bounded by the structure of their input take a step
  budget `fuel`; `Stop.out_of_fuel` reports that the budget did not suffice.
-/

namespace ObjImport

/-- Ways in which a run of the model stops without a result. -/
inductive Stop where
  /-- A `BLI_assert` whose condition is false. -/
  | assertion
  /-- The step budget of the model is used up before the loop has finished. -/
  | out_of_fuel
  /-- A byte count that does not fit the `int` it is stored in. -/
  | int_overflow
  deriving DecidableEq, Repr

/-- The macro `BLI_assert` as an active check. -/
def BLI_assert (cond : Bool) : Except Stop Unit :=
  if cond then .ok () else .error .assertion

/-- A `BLI::StringRef`: the characters it refers to. -/
abbrev StringRef := List Char

/-- The double quote character. -/
def double_quote : Char := Char.ofNat 34

/-- Function `is_whitespace`. -/
def is_whitespace (c : Char) : Bool :=
  c == ' ' || c == '\t' || c == '\r'

/-- Function `is_not_newline`. -/
def is_not_newline (c : Char) : Bool :=
  c != '\n'

/-- Function `is_newline`. -/
def is_newline (c : Char) : Bool :=
  c == '\n'

/-- The test `ELEM(*m_current, ' ', '\t', '\r', '\n')` of `extract_including_ext`. -/
def is_name_end (c : Char) : Bool :=
  c == ' ' || c == '\t' || c == '\r' || c == '\n'

/-- The loop `while (m_current < m_end && p(*m_current)) m_current++`: the characters passed
and the characters that remain. -/
def advance_while (p : Char → Bool) : List Char → List Char × List Char
  | [] => ([], [])
  | c :: rest =>
    if p c then
      let (passed, remaining) := advance_while p rest
      (c :: passed, remaining)
    else ([], c :: rest)

/-- Modelled from the spec: `StringRef::startswith` (BLI_string_ref.h is absent; the
specification does not describe it): the text begins with the characters of `other`. -/
def StringRef.startswith : StringRef → StringRef → Bool
  | _, [] => true
  | [], _ :: _ => false
  | c :: text, d :: other => c == d && StringRef.startswith text other

/-- Modelled from the spec: `StringRef::startswith_lower_ascii` (BLI_string_ref.h is absent;
the specification does not describe it): the text, with its ASCII capitals lowered, begins
with the characters of `other`. -/
def StringRef.startswith_lower_ascii : StringRef → StringRef → Bool
  | _, [] => true
  | [], _ :: _ => false
  | c :: text, d :: other => c.toLower == d && StringRef.startswith_lower_ascii text other

/-- Modelled from the spec: `StringRef::endswith(char)` (BLI_string_ref.h is absent): the
last character of the text is `c`. -/
def StringRef.endswith (text : StringRef) (c : Char) : Bool :=
  text.getLast? == some c

/-- Class `StringRefStream`: the characters from `m_current` up to `m_end`. -/
structure StringRefStream where
  remaining : List Char
  deriving DecidableEq, Repr

namespace StringRefStream

/-- Method `has_remaining_chars`. -/
def has_remaining_chars (s : StringRefStream) : Bool :=
  !s.remaining.isEmpty

/-- Method `peek_next`. -/
def peek_next (s : StringRefStream) : Except Stop Char := do
  BLI_assert s.has_remaining_chars
  match s.remaining with
  | c :: _ => return c
  | [] => .error .assertion

/-- Method `remaining_str`. -/
def remaining_str (s : StringRefStream) : StringRef :=
  s.remaining

/-- Method `startswith`. -/
def startswith (s : StringRefStream) (other : StringRef) : Bool :=
  StringRef.startswith s.remaining_str other

/-- Method `startswith_lower_ascii`. -/
def startswith_lower_ascii (s : StringRefStream) (other : StringRef) : Bool :=
  StringRef.startswith_lower_ascii s.remaining_str other

/-- Method `extract_line`: the line and the stream after the call. -/
def extract_line (s : StringRefStream) : StringRef × StringRefStream :=
  let (passed, remaining) := advance_while (fun c => c != '\n') s.remaining
  match remaining with
  | [] => (passed, { remaining := [] })
  | c :: rest => (passed ++ [c], { remaining := rest })

/-- Method `extract_until`. -/
def extract_until (s : StringRefStream) (c : Char) : StringRef × StringRefStream :=
  let (passed, remaining) := advance_while (fun d => d != c) s.remaining
  (passed, { remaining := remaining })

/-- Method `extract_quoted_string`. -/
def extract_quoted_string (s : StringRefStream) (quote : Char) :
    Except Stop (StringRef × StringRefStream) := do
  BLI_assert ((← s.peek_next) == quote)
  let s : StringRefStream := { remaining := s.remaining.drop 1 }
  let (str, s) := s.extract_until quote
  match s.remaining with
  | [] => return (str, s)
  | _ :: rest => return (str, { remaining := rest })

/-- Method `forward_over_whitespace`. -/
def forward_over_whitespace (s : StringRefStream) : StringRefStream :=
  { remaining := (advance_while is_whitespace s.remaining).2 }

/-- The loop of `extract_including_ext`; `passed` holds the characters from `start` up to
`m_current`. -/
def extract_including_ext_loop (ext : StringRef) :
    Nat → List Char → List Char → Except Stop (StringRef × StringRefStream)
  | 0, _, _ => .error .out_of_fuel
  | fuel + 1, passed, remaining =>
    match remaining with
    | [] => .ok ([], { remaining := [] })
    | c :: rest =>
      if StringRef.startswith_lower_ascii (c :: rest) ext then
        let passed := passed ++ (c :: rest).take ext.length
        let remaining := (c :: rest).drop ext.length
        match remaining with
        | [] => .ok (passed, { remaining := [] })
        | d :: _ =>
          if is_name_end d then .ok (passed, { remaining := remaining })
          else extract_including_ext_loop ext fuel passed remaining
      else extract_including_ext_loop ext fuel (passed ++ [c]) rest

/-- Method `extract_including_ext`. -/
def extract_including_ext (fuel : Nat) (s : StringRefStream) (ext : StringRef) :
    Except Stop (StringRef × StringRefStream) :=
  extract_including_ext_loop ext fuel [] s.remaining

end StringRefStream

/-- Modelled from the spec: `StringRef::drop_prefix(StringRef)` (BLI_string_ref.h is absent):
the text without its first `other.size()` characters. -/
def StringRef.drop_prefix (text other : StringRef) : StringRef :=
  text.drop other.length

/-- Modelled from the spec: `StringRef::drop_suffix(StringRef)` (BLI_string_ref.h is absent):
the text without its last `other.size()` characters. -/
def StringRef.drop_suffix (text other : StringRef) : StringRef :=
  text.take (text.length - other.length)

/-- The loop `while (true)` of `parse_file_names`; `inner_fuel` is the step budget handed to
`extract_including_ext`. -/
def parse_file_names_loop (ext : StringRef) (inner_fuel : Nat) :
    Nat → StringRefStream → List StringRef → Except Stop (List StringRef)
  | 0, _, _ => .error .out_of_fuel
  | fuel + 1, stream, r_names => do
    let stream := stream.forward_over_whitespace
    if !stream.has_remaining_chars then
      return r_names
    if (← stream.peek_next) == double_quote then
      let (name, stream) ← stream.extract_quoted_string double_quote
      parse_file_names_loop ext inner_fuel fuel stream (r_names ++ [name])
    else
      let (name, stream) ← stream.extract_including_ext inner_fuel ext
      parse_file_names_loop ext inner_fuel fuel stream (r_names ++ [name])

/-- Function `parse_file_names`; the returned list is `r_names` after the call. -/
def parse_file_names (fuel : Nat) (str ext : StringRef) (r_names : List StringRef) :
    Except Stop (List StringRef) :=
  let str := if StringRef.endswith str '\n' then StringRef.drop_suffix str ['\n'] else str
  parse_file_names_loop ext fuel fuel { remaining := str } r_names

/-- Enum `ObjFileSegmentType`. -/
inductive ObjFileSegmentType where
  | mtllib
  | o
  | v
  | vt
  | vn
  | usemtl
  | s
  | f
  deriving DecidableEq, Repr

/-- Struct `ObjFileSegment` with the payload of `ObjFileSegment_mtllib`; the other segment
structs are never built by the code. -/
structure ObjFileSegment where
  type : ObjFileSegmentType
  file_names : List StringRef
  deriving DecidableEq, Repr

/-- Struct `ObjFileSegments`. -/
structure ObjFileSegments where
  segments : List ObjFileSegment
  deriving DecidableEq, Repr

/-- The line loop `while (stream.has_remaining_chars()) { line = stream.extract_line(); ... }`
of `parse_obj_lines`, with `body` run on every line. -/
def for_each_line {σ : Type} (body : StringRef → σ → Except Stop σ) :
    Nat → StringRefStream → σ → Except Stop σ
  | 0, _, _ => .error .out_of_fuel
  | fuel + 1, stream, state =>
    if stream.has_remaining_chars then do
      let (line, stream) := stream.extract_line
      let state ← body line state
      for_each_line body fuel stream state
    else
      return state

/-- The body of the line loop of `parse_obj_lines`: the `switch` on the first character of
the line. The `mtllib` segment is a local of the case and is dropped when the case ends;
`print_as_lines` only writes to the standard output. -/
def parse_obj_line (fuel : Nat) (line : StringRef) (segments : ObjFileSegments) :
    Except Stop ObjFileSegments :=
  match line with
  | [] => return segments
  | c :: _ =>
    if c == ' ' || c == '\t' || c == '\r' then return segments
    else if c == '#' then return segments
    else if c == 'm' then
      if StringRef.startswith line "mtllib".toList then do
        let segment : ObjFileSegment := { type := .mtllib, file_names := [] }
        let file_names ← parse_file_names fuel ( StringRef.drop_prefix line "mtllib".toList)
          ".mtl".toList segment.file_names
        let _segment : ObjFileSegment := { segment with file_names := file_names }
        return segments
      else return segments
    else if c == 'o' then return segments
    else if c == 'v' then return segments
    else return segments

/-- Function `parse_obj_lines`. -/
def parse_obj_lines (fuel : Nat) (orig_str : StringRef) : Except Stop ObjFileSegments :=
  for_each_line (parse_obj_line fuel) fuel { remaining := orig_str } { segments := [] }

/-- The lines that the line loop of `parse_obj_lines` takes off the stream, in order. -/
def extract_lines (fuel : Nat) (str : StringRef) : Except Stop (List StringRef) :=
  for_each_line (fun line lines => .ok (lines ++ [line])) fuel { remaining := str } []

/-! ## TextLinesReader -/

/-- The state of the `std::istream` the reader works on: the bytes of the input, the get
position, the two state bits that the reader can meet and the count of the last read. -/
structure IStream where
  data : List Char
  pos : Nat := 0
  eofbit : Bool := false
  failbit : Bool := false
  last_gcount : Nat := 0
  deriving DecidableEq, Repr

namespace IStream

/-- Call `std::istream::eof`. -/
def eof (st : IStream) : Bool :=
  st.eofbit

/-- Call `std::istream::gcount`. -/
def gcount (st : IStream) : Nat :=
  st.last_gcount

/-- Call `std::istream::tellg`: the get position, or -1 when the stream has failed. -/
def tellg (st : IStream) : Int :=
  if st.failbit then -1 else st.pos

/-- Call `std::istream::read(buffer, n)`: the characters stored in the buffer and the stream
after the call. A stream that is not good stores nothing; a read that meets the end of the
input before `n` characters sets `eofbit` and `failbit`. -/
def read (st : IStream) (n : Nat) : List Char × IStream :=
  if st.failbit || st.eofbit then
    ([], { st with failbit := true, last_gcount := 0 })
  else
    let stored := (st.data.drop st.pos).take n
    if stored.length < n then
      (stored, { st with pos := st.pos + stored.length, eofbit := true, failbit := true,
                         last_gcount := stored.length })
    else
      (stored, { st with pos := st.pos + stored.length, last_gcount := stored.length })

/-- Call `std::istream::seekg(pos)`: clears `eofbit`; a stream that has failed stays where it
is, and a negative position makes the stream fail. -/
def seekg (st : IStream) (target : Int) : IStream :=
  let st := { st with eofbit := false }
  if st.failbit then st
  else if target < 0 then { st with failbit := true }
  else { st with pos := target.toNat }

/-- Call `std::istream::seekg(off, std::ios::cur)`. -/
def seekg_cur (st : IStream) (off : Int) : IStream :=
  st.seekg (st.pos + off)

end IStream

/-- What one call of `read_next_line_chunk` hands back: the chunk, the stream after the call
and, for every byte that the searches for the last line ending have read, the pair of its
buffer index and of the `extracted_amount` of that attempt, in reading order. -/
structure ChunkRead where
  chunk : StringRef
  stream : IStream
  inspected : List (Nat × Nat)
  deriving DecidableEq, Repr

/-- The byte `buffer[index]` as the search reads it: a byte of the buffer when the index is
inside it, and otherwise the byte `past_end` that the heap holds behind the allocation. -/
def buffer_byte (buffer : List Char) (past_end : Char) (index : Nat) : Char :=
  match buffer[index]? with
  | some c => c
  | none => past_end

/-- The loop `while (buffer_end > buffer && *buffer_end != '\n') buffer_end--`, started with
`buffer_end` at the given index: the index it ends at and the indices it has read. -/
def search_last_line_ending (buffer : List Char) (past_end : Char) : Nat → Nat × List Nat
  | 0 => (0, [])
  | index + 1 =>
    if buffer_byte buffer past_end (index + 1) != '\n' then
      let (found, inspected) := search_last_line_ending buffer past_end index
      (found, (index + 1) :: inspected)
    else (index + 1, [index + 1])

/-- Method `TextLinesReader::read_next_line_chunk_internal`. `heap n` is the byte that the
heap holds right behind a buffer of `n` bytes; `approximate_size` is a `uint`, so that the
doubled size wraps at 2^32; a count of 2^31 bytes or more does not fit `int
extracted_amount`. -/
def read_next_line_chunk_internal (heap : Nat → Char) :
    Nat → IStream → Nat → List (Nat × Nat) → Except Stop ChunkRead
  | 0, _, _, _ => .error .out_of_fuel
  | fuel + 1, m_istream, approximate_size, inspected =>
    let approximate_size := max 1 (approximate_size % 2 ^ 32)
    let start_pos := m_istream.tellg
    let (buffer, m_istream) := m_istream.read approximate_size
    if 2 ^ 31 ≤ m_istream.gcount then .error .int_overflow
    else
      let extracted_amount := m_istream.gcount
      if m_istream.eof then
        .ok { chunk := buffer.take extracted_amount, stream := m_istream,
              inspected := inspected }
      else
        let (buffer_end, read_indices) :=
          search_last_line_ending buffer (heap approximate_size) extracted_amount
        let inspected := inspected ++ read_indices.map (fun index => (index, extracted_amount))
        if buffer_end == 0 then
          let m_istream := m_istream.seekg start_pos
          read_next_line_chunk_internal heap fuel m_istream (approximate_size * 2 % 2 ^ 32)
            inspected
        else
          let chunk_size := buffer_end
          let m_istream :=
            m_istream.seekg_cur ((chunk_size : Int) - (extracted_amount : Int) + 1)
          .ok { chunk := buffer.take chunk_size, stream := m_istream, inspected := inspected }

/-- Method `TextLinesReader::read_next_line_chunk` (the lock and the registry of chunks are
not part of the observable result). -/
def read_next_line_chunk (heap : Nat → Char) (fuel : Nat) (m_istream : IStream)
    (approximate_size : Nat) : Except Stop ChunkRead :=
  read_next_line_chunk_internal heap fuel m_istream approximate_size []

/-- The loop `while (!reader.eof()) { text = reader.read_next_line_chunk(size); ... }` of
`import_obj`: the chunks it reads, in order. -/
def read_chunks (heap : Nat → Char) (approximate_size : Nat) (inner_fuel : Nat) :
    Nat → IStream → List StringRef → Except Stop (List StringRef)
  | 0, _, _ => .error .out_of_fuel
  | fuel + 1, m_istream, chunks =>
    if !m_istream.eof then do
      let text ← read_next_line_chunk heap inner_fuel m_istream approximate_size
      read_chunks heap approximate_size inner_fuel fuel text.stream (chunks ++ [text.chunk])
    else
      return chunks

/-- The chunks that `import_obj` reads from a file with the given bytes, asking for chunks of
about `approximate_size` bytes. -/
def chunks_of_input (heap : Nat → Char) (fuel : Nat) (input : List Char)
    (approximate_size : Nat) : Except Stop (List StringRef) :=
  read_chunks heap approximate_size fuel fuel { data := input } []

/-- The chunks joined with a single newline between consecutive chunks. -/
def join_chunks : List StringRef → List Char
  | [] => []
  | [chunk] => chunk
  | chunk :: rest => chunk ++ '\n' :: join_chunks rest

/-! ## Statements about names with the extension ".mtl" -/

/-- The first `k` characters of `text` are a name with the extension ".mtl": they end with
the extension, compared with ASCII capitals lowered, and they are followed by the end of the
text or by a space, a tab, a carriage return or a newline. -/
def ends_mtl_name (text : List Char) (k : Nat) : Prop :=
  k ≤ text.length ∧
  (∃ stem e, text.take k = stem ++ e ∧ e.map Char.toLower = ".mtl".toList) ∧
  (k = text.length ∨ ∃ d, text[k]? = some d ∧ (d = ' ' ∨ d = '\t' ∨ d = '\r' ∨ d = '\n'))

/-! ## Statements about the names that parse_file_names appends -/

/-- The first `k` characters of `text` are a name with the extension `ext`: they end with
the extension, compared with ASCII capitals lowered, and they are followed by the end of the
text or by a space, a tab, a carriage return or a newline. -/
def ends_ext_name (ext : StringRef) (text : List Char) (k : Nat) : Prop :=
  k ≤ text.length ∧
  (∃ stem e, text.take k = stem ++ e ∧ e.map Char.toLower = ext) ∧
  (k = text.length ∨ ∃ d, text[k]? = some d ∧ (d = ' ' ∨ d = '\t' ∨ d = '\r' ∨ d = '\n'))

/-- The first character of the extension does not occur again in it, as in ".mtl". -/
def first_char_unique : StringRef → Bool
  | [] => true
  | c :: rest => !rest.contains c

/-- The names that parse_file_names appends for `text`, one per loop iteration. After blanks,
text that starts with a double quote gives the text up to the next double quote, or up to the
end of the text when the quote is not closed. Any other text gives a beginning of it that is a
name with the extension, the scan going on right after it; when the first character of the
extension does not occur again in it, this is the shortest such beginning. When instead the
empty name is appended, the text is used up, and with such an extension no beginning of the
text is a name with the extension. -/
inductive TokenNames (ext : StringRef) : List Char → List StringRef → Prop where
  | done (text : List Char) :
    (∀ c ∈ text, is_whitespace c = true) → TokenNames ext text []
  | quoted (blanks name rest : List Char) (names : List StringRef) :
    (∀ c ∈ blanks, is_whitespace c = true) → double_quote ∉ name →
    TokenNames ext rest names →
    TokenNames ext (blanks ++ double_quote :: (name ++ double_quote :: rest)) (name :: names)
  | unclosed (blanks name : List Char) :
    (∀ c ∈ blanks, is_whitespace c = true) → double_quote ∉ name →
    TokenNames ext (blanks ++ double_quote :: name) [name]
  | unquoted (blanks : List Char) (c : Char) (more : List Char) (k : Nat)
      (names : List StringRef) :
    (∀ d ∈ blanks, is_whitespace d = true) → is_whitespace c = false → c ≠ double_quote →
    ends_ext_name ext (c :: more) k →
    (first_char_unique ext = true → ∀ j, ends_ext_name ext (c :: more) j → k ≤ j) →
    TokenNames ext ((c :: more).drop k) names →
    TokenNames ext (blanks ++ c :: more) ((c :: more).take k :: names)
  | unnamed (blanks : List Char) (c : Char) (more : List Char) :
    (∀ d ∈ blanks, is_whitespace d = true) → is_whitespace c = false → c ≠ double_quote →
    (first_char_unique ext = true → ∀ j, ¬ ends_ext_name ext (c :: more) j) →
    TokenNames ext (blanks ++ c :: more) [[]]

/-- The text ` "a b.mtl" c.mtl` followed by a newline. -/
def example_file_names : StringRef :=
  ' ' :: double_quote :: "a b.mtl".toList ++ double_quote :: " c.mtl\n".toList

/-- The text `"abc`: a double quote that is not closed. -/
def example_unclosed_quote : StringRef :=
  double_quote :: "abc".toList

end ObjImport

namespace BKE

/-! ## map_socket_idnames -/

section MapSocketIdnames

variable {T : Type}

theorem map_socket_idnames_loop_append (map : StringMap T) (d : T)
    (xs ys : List VirtualSocket) (r : List T) :
    VirtualNodeTree.map_socket_idnames_loop map d (xs ++ ys) r =
      (VirtualNodeTree.map_socket_idnames_loop map d xs r >>=
        VirtualNodeTree.map_socket_idnames_loop map d ys) := by
  unfold VirtualNodeTree.map_socket_idnames_loop
  rw [List.foldlM_append]

/-- The loop over the nodes is one loop over all sockets in visiting order. -/
theorem map_socket_idnames_nodes (map : StringMap T) (d : T) :
    ∀ (nodes : List VirtualNode) (r : List T),
      nodes.foldlM
          (fun r vnode => do
            let r ← VirtualNodeTree.map_socket_idnames_loop map d vnode.m_inputs r
            VirtualNodeTree.map_socket_idnames_loop map d vnode.m_outputs r)
          r =
        VirtualNodeTree.map_socket_idnames_loop map d
          (nodes.flatMap (fun vnode => vnode.m_inputs ++ vnode.m_outputs)) r := by
  intro nodes
  induction nodes with
  | nil => intro r; rfl
  | cons vnode rest ih =>
    intro r
    rw [List.foldlM_cons, List.flatMap_cons, map_socket_idnames_loop_append,
      map_socket_idnames_loop_append]
    simp only [ih]

/-- What one loop of writes does to the array when every identity is in range. -/
theorem map_socket_idnames_loop_spec (map : StringMap T) (d : T) :
    ∀ (ss : List VirtualSocket) (r : List T), (∀ s ∈ ss, s.m_id < r.length) →
      ∃ r1, VirtualNodeTree.map_socket_idnames_loop map d ss r = .ok r1 ∧
        r1.length = r.length ∧
        (∀ i, i ∉ ss.map (fun s => s.m_id) → r1[i]? = r[i]?) ∧
        ((ss.map (fun s => s.m_id)).Nodup →
          ∀ s ∈ ss, r1[s.m_id]? = some (map.lookup_default s.idname d)) := by
  intro ss
  induction ss with
  | nil =>
    intro r _
    exact ⟨r, rfl, rfl, fun _ _ => rfl, fun _ s hs => by cases hs⟩
  | cons s rest ih =>
    intro r hr
    have hs : s.m_id < r.length := hr s (List.mem_cons_self _ _)
    have hrest : ∀ x ∈ rest, x.m_id < (r.set s.m_id (map.lookup_default s.idname d)).length := by
      intro x hx
      rw [List.length_set]
      exact hr x (List.mem_cons_of_mem _ hx)
    obtain ⟨r1, hrun, hlen, hother, hmem⟩ := ih _ hrest
    refine ⟨r1, ?_, ?_, ?_, ?_⟩
    · simp only [VirtualNodeTree.map_socket_idnames_loop, List.foldlM_cons, array_set, hs,
        if_true]
      exact hrun
    · rw [hlen, List.length_set]
    · intro i hi
      have hi1 : i ∉ rest.map (fun s => s.m_id) := fun h => hi (by simp at h ⊢; exact Or.inr h)
      have hi2 : s.m_id ≠ i := fun h => hi (by simp [h])
      rw [hother i hi1, List.getElem?_set, if_neg hi2]
    · intro hnodup x hx
      rw [List.map_cons, List.nodup_cons] at hnodup
      rcases List.mem_cons.mp hx with rfl | hx
      · rw [hother _ hnodup.1, List.getElem?_set, if_pos rfl, if_pos hs]
      · exact hmem hnodup.2 x hx

/-- An array that holds, at the identity of every socket, a value of that socket is a
rearrangement of the values of the sockets: every value occurs equally often. -/
theorem count_eq_of_lookup {β : Type} [DecidableEq β] (ss : List VirtualSocket)
    (val : VirtualSocket → β) (r : List β)
    (hnodup : (ss.map (fun s => s.m_id)).Nodup)
    (hrange : ∀ i, i ∈ ss.map (fun s => s.m_id) ↔ i < r.length)
    (h : ∀ s ∈ ss, r[s.m_id]? = some (val s)) (b : β) :
    r.count b = (ss.map val).count b := by
  have hperm : (ss.map (fun s => s.m_id)).Perm (List.range r.length) := by
    rw [List.perm_ext_iff_of_nodup hnodup (List.nodup_range _)]
    intro i
    rw [hrange, List.mem_range]
  have h1 : ((ss.map (fun s => s.m_id)).map (fun i => r[i]?)) = (ss.map val).map some := by
    rw [List.map_map, List.map_map]
    apply List.map_congr_left
    intro s hs
    exact h s hs
  have h2 : (List.range r.length).map (fun i => r[i]?) = r.map some := by
    apply List.ext_getElem?
    intro i
    by_cases hi : i < r.length
    · simp [hi, List.getElem?_eq_getElem]
    · have hle : r.length ≤ i := Nat.le_of_not_lt hi
      rw [List.getElem?_eq_none (by simpa using hle), List.getElem?_eq_none (by simpa using hle)]
  have h3 : ((ss.map val).map some).Perm (r.map some) := by
    rw [← h1, ← h2]
    exact hperm.map _
  rw [← List.count_map_of_injective r some (Option.some_injective β) b,
    ← List.count_map_of_injective (ss.map val) some (Option.some_injective β) b]
  exact (h3.count_eq (some b)).symm

end MapSocketIdnames

/-- C1: on a snapshot whose socket identities are pairwise distinct and are exactly
0 .. socket_count()-1, for every table, default value and result array of length
socket_count(), map_socket_idnames returns and leaves at result[s.id] the table's value for
the type-name of s when the table has that name and the default otherwise, for every input and
output socket s of every node; every slot is written by some socket, and the result is the
same for every other array of that length. With the table ("TypeA" -> 1) and default 0, the
number of entries equal to 1 is the number of sockets whose type-name is "TypeA". -/
theorem map_socket_idnames_assigns_by_idname (t : VirtualNodeTree) (n : Nat)
    (hcount : t.socket_count = .ok n)
    (hnodup : (t.all_sockets.map (fun s => s.m_id)).Nodup)
    (hrange : ∀ i, i ∈ t.all_sockets.map (fun s => s.m_id) ↔ i < n) :
    (∀ (T : Type) (map : StringMap T) (default_value : T) (r_result : List T),
      r_result.length = n →
      ∃ r, t.map_socket_idnames map default_value r_result = .ok r ∧
        r.length = n ∧
        (∀ s ∈ t.all_sockets, ∀ v, List.lookup s.idname map = some v → r[s.m_id]? = some v) ∧
        (∀ s ∈ t.all_sockets, List.lookup s.idname map = none →
          r[s.m_id]? = some default_value) ∧
        (∀ i, i < n → ∃ s ∈ t.all_sockets,
          s.m_id = i ∧ r[i]? = some (map.lookup_default s.idname default_value)) ∧
        (∀ r_other : List T, r_other.length = n →
          t.map_socket_idnames map default_value r_other = .ok r)) ∧
    (∀ r_result : List Nat, r_result.length = n →
      ∃ r, t.map_socket_idnames [("TypeA", 1)] 0 r_result = .ok r ∧
        r.count 1 = (t.all_sockets.filter (fun s => s.idname == "TypeA")).length) := by
  have hn : t.m_socket_counter = n := by
    simpa [VirtualNodeTree.socket_count, pure, Except.pure] using hcount
  -- the call on an array of the right length, as one loop over all sockets
  have key : ∀ (T : Type) (map : StringMap T) (d : T) (r_result : List T),
      r_result.length = n →
      ∃ r, t.map_socket_idnames map d r_result = .ok r ∧ r.length = n ∧
        (∀ s ∈ t.all_sockets, r[s.m_id]? = some (map.lookup_default s.idname d)) := by
    intro T map d r_result hlen
    have hin : ∀ s ∈ t.all_sockets, s.m_id < r_result.length := by
      intro s hs
      rw [hlen, ← hrange]
      exact List.mem_map_of_mem _ hs
    obtain ⟨r, hrun, hrlen, _, hmem⟩ := map_socket_idnames_loop_spec map d _ r_result hin
    refine ⟨r, ?_, by rw [hrlen, hlen], hmem hnodup⟩
    simp only [VirtualNodeTree.map_socket_idnames, VirtualNodeTree.socket_count, pure,
      Except.pure, bind, Except.bind, hn, hlen, BLI_assert, beq_self_eq_true, if_true]
    exact (map_socket_idnames_nodes map d t.m_nodes r_result).trans hrun
  constructor
  · intro T map d r_result hlen
    obtain ⟨r, hrun, hrlen, hval⟩ := key T map d r_result hlen
    refine ⟨r, hrun, hrlen, ?_, ?_, ?_, ?_⟩
    · intro s hs v hv
      rw [hval s hs, StringMap.lookup_default, hv]
    · intro s hs hv
      rw [hval s hs, StringMap.lookup_default, hv]
    · intro i hi
      obtain ⟨s, hs, hsi⟩ := List.mem_map.mp ((hrange i).mpr hi)
      exact ⟨s, hs, hsi, by rw [← hsi]; exact hval s hs⟩
    · intro r_other hother
      obtain ⟨r2, hrun2, hrlen2, hval2⟩ := key T map d r_other hother
      rw [hrun2]
      congr 1
      apply List.ext_getElem?
      intro i
      by_cases hi : i < n
      · obtain ⟨s, hs, hsi⟩ := List.mem_map.mp ((hrange i).mpr hi)
        rw [← hsi, hval s hs, hval2 s hs]
      · rw [List.getElem?_eq_none (by omega), List.getElem?_eq_none (by omega)]
  · intro r_result hlen
    obtain ⟨r, hrun, hrlen, hval⟩ := key Nat [("TypeA", 1)] 0 r_result hlen
    refine ⟨r, hrun, ?_⟩
    rw [count_eq_of_lookup t.all_sockets
      (fun s => StringMap.lookup_default [("TypeA", 1)] s.idname 0) r hnodup
      (by intro i; rw [hrlen]; exact hrange i) hval 1]
    rw [List.count_eq_countP, List.countP_map, List.countP_eq_length_filter]
    congr 1
    apply List.filter_congr
    intro s _
    by_cases hs : s.idname = "TypeA"
    · simp [StringMap.lookup_default, List.lookup, hs]
    · have hne : (s.idname == "TypeA") = false := by simpa using hs
      simp [StringMap.lookup_default, List.lookup, hne]

/-- C1 at the scenario of section 8: four sockets, one of them of type-name "TypeA". -/
theorem map_socket_idnames_assigns_by_idname_witness :
    scenario_tree.socket_count = .ok 4 ∧
    (scenario_tree.all_sockets.map (fun s => s.m_id)).Nodup ∧
    (∀ i, i ∈ scenario_tree.all_sockets.map (fun s => s.m_id) ↔ i < 4) ∧
    ∃ r, scenario_tree.map_socket_idnames [("TypeA", 1)] 0 [9, 9, 9, 9] = .ok r ∧
      r.count 1 = (scenario_tree.all_sockets.filter (fun s => s.idname == "TypeA")).length :=
  have h1 : scenario_tree.socket_count = .ok 4 := by decide
  have h2 : (scenario_tree.all_sockets.map (fun s => s.m_id)).Nodup := by decide
  have h3 : ∀ i, i ∈ scenario_tree.all_sockets.map (fun s => s.m_id) ↔ i < 4 := by
    have hids : scenario_tree.all_sockets.map (fun s => s.m_id) = [0, 1, 2, 3] := by decide
    intro i
    rw [hids]
    simp
    omega
  ⟨h1, h2, h3, (map_socket_idnames_assigns_by_idname scenario_tree 4 h1 h2 h3).2 [9, 9, 9, 9] rfl⟩

/-! ## Socket identities after freezing -/

theorem all_sockets_ids (t : VirtualNodeTree) :
    t.all_sockets.map (fun s => s.m_id) = socket_ids t.m_nodes := by
  unfold VirtualNodeTree.all_sockets socket_ids
  rw [List.map_flatMap, List.flatMap_def]
  rfl

theorem modify_at_map {α β : Type} (f : α → α) (g : α → β) (h : ∀ x, g (f x) = g x) :
    ∀ (index : Nat) (l : List α), (modify_at f index l).map g = l.map g := by
  intro index l
  induction l generalizing index with
  | nil => cases index <;> rfl
  | cons x xs ih =>
    cases index with
    | zero => simp [modify_at, h]
    | succ k => simp [modify_at, ih]

theorem map_indexed_map {α β γ : Type} (f : Nat → α → β) (g : β → γ) (g0 : α → γ)
    (h : ∀ i x, g (f i x) = g0 x) :
    ∀ (start : Nat) (l : List α), (map_indexed f start l).map g = l.map g0 := by
  intro start l
  induction l generalizing start with
  | nil => rfl
  | cons x xs ih => simp [map_indexed, h, ih]

theorem assign_ids_spec :
    ∀ (ss : List VirtualSocket) (counter : Nat),
      (VirtualNodeTree.assign_ids counter ss).1.map (fun s => s.m_id) =
          List.range' counter ss.length ∧
        (VirtualNodeTree.assign_ids counter ss).2 = counter + ss.length := by
  intro ss
  induction ss with
  | nil => intro counter; simp [VirtualNodeTree.assign_ids]
  | cons s rest ih =>
    intro counter
    obtain ⟨h1, h2⟩ := ih (counter + 1)
    simp only [VirtualNodeTree.assign_ids, List.map_cons, List.length_cons, List.range'_succ]
    exact ⟨by rw [h1], by rw [h2]; omega⟩

theorem assign_node_ids_spec :
    ∀ (nodes : List VirtualNode) (counter : Nat),
      ∃ k, socket_ids (VirtualNodeTree.assign_node_ids counter nodes).1 =
          List.range' counter k ∧
        (VirtualNodeTree.assign_node_ids counter nodes).2 = counter + k := by
  intro nodes
  induction nodes with
  | nil => intro counter; exact ⟨0, by simp [VirtualNodeTree.assign_node_ids, socket_ids]⟩
  | cons vnode rest ih =>
    intro counter
    obtain ⟨hi1, hi2⟩ := assign_ids_spec vnode.m_inputs counter
    obtain ⟨ho1, ho2⟩ := assign_ids_spec vnode.m_outputs (counter + vnode.m_inputs.length)
    obtain ⟨k, hk1, hk2⟩ := ih (counter + vnode.m_inputs.length + vnode.m_outputs.length)
    refine ⟨k + (vnode.m_outputs.length + vnode.m_inputs.length), ?_, ?_⟩
    · simp only [VirtualNodeTree.assign_node_ids, socket_ids, List.map_cons,
        List.flatten_cons, node_socket_ids, List.map_append]
      rw [hi1, hi2, ho1, ho2]
      simp only [socket_ids, node_socket_ids] at hk1
      rw [hk1, List.range'_append_1,
        show counter + vnode.m_inputs.length + vnode.m_outputs.length =
          counter + (vnode.m_outputs.length + vnode.m_inputs.length) by omega,
        List.range'_append_1]
    · simp only [VirtualNodeTree.assign_node_ids]
      rw [hi2, ho2, hk2]
      omega

theorem modify_socket_ids (nodes : List VirtualNode) (r : SocketRef)
    (f : VirtualSocket → VirtualSocket) (h : ∀ s, (f s).m_id = s.m_id) :
    socket_ids (modify_socket nodes r f) = socket_ids nodes := by
  unfold socket_ids modify_socket
  rw [modify_at_map]
  intro vnode
  by_cases hr : r.is_output = true
  · simp [hr, node_socket_ids, modify_at_map f (fun s => s.m_id) h]
  · simp [hr, node_socket_ids, modify_at_map f (fun s => s.m_id) h]

theorem initialize_direct_links_ids (t : VirtualNodeTree) :
    socket_ids t.initialize_direct_links.m_nodes = socket_ids t.m_nodes := by
  unfold VirtualNodeTree.initialize_direct_links
  generalize t.m_nodes = nodes
  generalize t.m_links = links
  induction links generalizing nodes with
  | nil => rfl
  | cons vlink rest ih =>
    simp only [List.foldl_cons]
    simp only at ih
    rw [ih, modify_socket_ids]
    intro s
    rfl

theorem initialize_links_ids (pass_through : bNode → Bool) (t : VirtualNodeTree) :
    socket_ids (t.initialize_links pass_through).m_nodes = socket_ids t.m_nodes := by
  unfold VirtualNodeTree.initialize_links socket_ids
  simp only
  rw [map_indexed_map _ node_socket_ids node_socket_ids]
  intro i vnode
  simp only [node_socket_ids, List.map_append]
  rw [map_indexed_map _ (fun s : VirtualSocket => s.m_id) (fun s : VirtualSocket => s.m_id)]
  intro j s
  rfl

/-- Population keeps the snapshot unfrozen and its socket counter untouched, and never
fails on an unfrozen snapshot. -/
theorem populate_ok :
    ∀ (calls : List PopulationCall) (t : VirtualNodeTree), t.m_frozen = false →
      ∃ t1, calls.foldlM PopulationCall.run t = .ok t1 ∧ t1.m_frozen = false ∧
        t1.m_socket_counter = t.m_socket_counter := by
  intro calls
  induction calls with
  | nil => intro t ht; exact ⟨t, rfl, ht, rfl⟩
  | cons call rest ih =>
    intro t ht
    cases call with
    | add_bnode bnode =>
      obtain ⟨t1, h1, h2, h3⟩ := ih
        { t with m_nodes := t.m_nodes ++
            [{ m_bnode := bnode
               m_inputs := bnode.inputs.map (new_socket t.m_nodes.length)
               m_outputs := bnode.outputs.map (new_socket t.m_nodes.length) }] } ht
      refine ⟨t1, ?_, h2, h3⟩
      simp only [List.foldlM_cons, PopulationCall.run, VirtualNodeTree.add_bnode, BLI_assert, ht,
        bind, Except.bind, pure, Except.pure, Bool.not_false, if_true]
      simp only [ht] at h1
      exact h1
    | add_link a b =>
      obtain ⟨t1, h1, h2, h3⟩ := ih
        { t with m_links := t.m_links ++ [{ m_from := a, m_to := b }] } ht
      refine ⟨t1, ?_, h2, h3⟩
      simp only [List.foldlM_cons, PopulationCall.run, VirtualNodeTree.add_link, BLI_assert, ht,
        bind, Except.bind, pure, Except.pure, Bool.not_false, if_true]
      simp only [ht] at h1
      exact h1

/-- Freezing an unfrozen snapshot whose counter is still zero succeeds and numbers the
sockets 0, 1, 2, ... in visiting order, the counter ending at their number. -/
theorem freeze_and_index_ids (pass_through : bNode → Bool) (t : VirtualNodeTree)
    (hfrozen : t.m_frozen = false) (hcounter : t.m_socket_counter = 0) :
    ∃ t1, t.freeze_and_index pass_through = .ok t1 ∧ t1.m_frozen = true ∧
      socket_ids t1.m_nodes = List.range t1.m_socket_counter := by
  obtain ⟨k, hk1, hk2⟩ := assign_node_ids_spec t.m_nodes t.m_socket_counter
  refine ⟨{ ((((t.initialize_socket_ids).initialize_direct_links).initialize_links
      pass_through).initialize_inputs_with_links).initialize_nodes_by_idname with
      m_frozen := true }, ?_, ?_, ?_⟩
  · simp only [VirtualNodeTree.freeze_and_index, BLI_assert, hfrozen, bind, Except.bind, pure,
      Except.pure, Bool.not_false, if_true]
  · rfl
  · show socket_ids ((t.initialize_socket_ids.initialize_direct_links).initialize_links
        pass_through).m_nodes = List.range t.initialize_socket_ids.m_socket_counter
    rw [initialize_links_ids, initialize_direct_links_ids]
    show socket_ids (VirtualNodeTree.assign_node_ids t.m_socket_counter t.m_nodes).1 =
      List.range (VirtualNodeTree.assign_node_ids t.m_socket_counter t.m_nodes).2
    rw [hk1, hk2, hcounter, List.range_eq_range']
    simp

/-- C2: for every sequence of add_bnode and add_link calls on a new snapshot followed by
freeze_and_index, the build succeeds, the identities of all input and output sockets of all
nodes are pairwise distinct, and the set of identities is exactly 0 .. socket_count()-1. -/
theorem socket_ids_dense_after_freeze (pass_through : bNode → Bool)
    (calls : List PopulationCall) :
    ∃ t n, build pass_through calls = .ok t ∧ t.is_frozen = true ∧
      t.socket_count = .ok n ∧
      (t.all_sockets.map (fun s => s.m_id)).Nodup ∧
      (∀ i, i ∈ t.all_sockets.map (fun s => s.m_id) ↔ i < n) ∧
      t.all_sockets.length = n := by
  obtain ⟨t0, h0, hfrozen, hcounter⟩ := populate_ok calls {} rfl
  obtain ⟨t1, h1, h2, h3⟩ := freeze_and_index_ids pass_through t0 hfrozen hcounter
  refine ⟨t1, t1.m_socket_counter, ?_, h2, rfl, ?_, ?_, ?_⟩
  · simp only [build, h0, bind, Except.bind]
    exact h1
  · rw [all_sockets_ids, h3]
    exact List.nodup_range _
  · intro i
    rw [all_sockets_ids, h3, List.mem_range]
  · have h := congrArg List.length (all_sockets_ids t1)
    rw [h3, List.length_map, List.length_range] at h
    exact h

/-! ## Resolution through pass-through nodes -/

/-- C3: for the chain A.out -> P1.in, P1.out -> P2.in, P2.out -> B.in in which P1 and P2
are pass-through nodes (and A is not), after freeze_and_index the resolved links of B.in are
exactly A.out and its direct links are exactly P2.out. -/
theorem chain_resolves_to_source (pass_through : bNode → Bool) (A P1 P2 B : bNode)
    (a_out p1_in p1_out p2_in p2_out b_in : bNodeSocket)
    (hA : A.outputs = [a_out]) (hP1i : P1.inputs = [p1_in]) (hP1o : P1.outputs = [p1_out])
    (hP2i : P2.inputs = [p2_in]) (hP2o : P2.outputs = [p2_out]) (hB : B.inputs = [b_in])
    (hpA : pass_through A = false) (hpP1 : pass_through P1 = true)
    (hpP2 : pass_through P2 = true) :
    ∃ t vsocket, build pass_through (chain_calls A P1 P2 B) = .ok t ∧
      socket_at t.m_nodes { node := 3, is_output := false, index := 0 } = some vsocket ∧
      vsocket.m_bsocket = b_in ∧
      vsocket.links t = .ok [{ node := 0, is_output := true, index := 0 }] ∧
      vsocket.direct_links t = .ok [{ node := 2, is_output := true, index := 0 }] ∧
      (socket_at t.m_nodes { node := 0, is_output := true, index := 0 }).map
        (fun s => s.m_bsocket) = some a_out ∧
      (socket_at t.m_nodes { node := 2, is_output := true, index := 0 }).map
        (fun s => s.m_bsocket) = some p2_out := by
  simp [build, chain_calls, PopulationCall.run, VirtualNodeTree.add_bnode,
    VirtualNodeTree.add_link, BLI_assert, bind, Except.bind, pure, Except.pure,
    VirtualNodeTree.freeze_and_index, hA, hP1i, hP1o, hP2i, hP2o, hB, hpA, hpP1, hpP2,
    VirtualNodeTree.initialize_socket_ids, VirtualNodeTree.initialize_direct_links,
    VirtualNodeTree.initialize_links, VirtualNodeTree.initialize_inputs_with_links,
    VirtualNodeTree.initialize_nodes_by_idname, VirtualNodeTree.assign_node_ids,
    VirtualNodeTree.assign_ids, modify_socket, modify_at, map_indexed, socket_at,
    VirtualNodeTree.find_producers, new_socket, VirtualSocket.links,
    VirtualSocket.direct_links, VirtualNodeTree.is_frozen, List.range, List.range.loop]

/-- C3 at a concrete chain whose two relays are reroute nodes. -/
theorem chain_resolves_to_source_witness :
    is_reroute (example_source "A" "Value") = false ∧
    is_reroute (example_relay "P1" "NodeReroute") = true ∧
    is_reroute (example_relay "P2" "NodeReroute") = true ∧
    ∃ t vsocket,
      build is_reroute
        (chain_calls (example_source "A" "Value") (example_relay "P1" "NodeReroute")
          (example_relay "P2" "NodeReroute") (example_sink "B" "Output")) = .ok t ∧
      socket_at t.m_nodes { node := 3, is_output := false, index := 0 } = some vsocket ∧
      vsocket.m_bsocket = example_bsocket SOCK_IN "Value" "NodeSocketFloat" ∧
      vsocket.links t = .ok [{ node := 0, is_output := true, index := 0 }] ∧
      vsocket.direct_links t = .ok [{ node := 2, is_output := true, index := 0 }] ∧
      (socket_at t.m_nodes { node := 0, is_output := true, index := 0 }).map
        (fun s => s.m_bsocket) = some (example_bsocket SOCK_OUT "Value" "NodeSocketFloat") ∧
      (socket_at t.m_nodes { node := 2, is_output := true, index := 0 }).map
        (fun s => s.m_bsocket) =
          some (example_bsocket SOCK_OUT "Output" "NodeSocketVirtual") :=
  ⟨by decide, by decide, by decide,
    chain_resolves_to_source is_reroute (example_source "A" "Value")
      (example_relay "P1" "NodeReroute") (example_relay "P2" "NodeReroute")
      (example_sink "B" "Output") _ _ _ _ _ _ rfl rfl rfl rfl rfl rfl (by decide) (by decide)
      (by decide)⟩

/-! ## Lookup of nodes by type-name -/

theorem multimap_lookup_add {V : Type} (key name : String) (value : V) :
    ∀ map : MultiMap V,
      (map.add key value).lookup_default name =
        if key = name then map.lookup_default name ++ [value] else map.lookup_default name := by
  intro map
  induction map with
  | nil =>
    by_cases h : key = name
    · simp [MultiMap.add, MultiMap.lookup_default, List.lookup, h]
    · have h1 : (name == key) = false := by simpa using fun h2 : name = key => h h2.symm
      simp [MultiMap.add, MultiMap.lookup_default, List.lookup, h, h1]
  | cons entry rest ih =>
    obtain ⟨k, vs⟩ := entry
    by_cases hk : k = key
    · subst hk
      by_cases h : k = name
      · subst h
        simp [MultiMap.add, MultiMap.lookup_default, List.lookup]
      · have h1 : (name == k) = false := by simpa using fun h2 : name = k => h h2.symm
        simp [MultiMap.add, MultiMap.lookup_default, List.lookup, h, h1]
    · have hk1 : (k == key) = false := by simpa using hk
      simp only [MultiMap.add, hk1]
      by_cases hn : name = k
      · subst hn
        have h2 : ¬ key = name := fun h => hk h.symm
        simp [MultiMap.lookup_default, List.lookup, h2]
      · have hn1 : (name == k) = false := by simpa using hn
        simp only [MultiMap.lookup_default, List.lookup, hn1] at ih ⊢
        exact ih

theorem add_nodes_by_idname_lookup (name : String) :
    ∀ (nodes : List VirtualNode) (map : MultiMap NodeRef) (start : Nat),
      (VirtualNodeTree.add_nodes_by_idname map start nodes).lookup_default name =
        map.lookup_default name ++
          positions_with_idname name start (nodes.map (fun vnode => vnode.m_bnode)) := by
  intro nodes
  induction nodes with
  | nil => intro map start; simp [VirtualNodeTree.add_nodes_by_idname, positions_with_idname]
  | cons vnode rest ih =>
    intro map start
    simp only [VirtualNodeTree.add_nodes_by_idname, List.map_cons]
    rw [ih, multimap_lookup_add]
    unfold positions_with_idname
    by_cases h : vnode.m_bnode.idname = name
    · simp [VirtualNode.idname, h, List.enumFrom_cons, List.filter_cons]
    · have h1 : (vnode.m_bnode.idname == name) = false := by simpa using h
      simp [VirtualNode.idname, h, h1, List.enumFrom_cons, List.filter_cons]

theorem assign_node_ids_bnodes :
    ∀ (nodes : List VirtualNode) (counter : Nat),
      (VirtualNodeTree.assign_node_ids counter nodes).1.map (fun vnode => vnode.m_bnode) =
        nodes.map (fun vnode => vnode.m_bnode) := by
  intro nodes
  induction nodes with
  | nil => intro counter; rfl
  | cons vnode rest ih =>
    intro counter
    simp only [VirtualNodeTree.assign_node_ids, List.map_cons, ih]

theorem initialize_direct_links_bnodes (t : VirtualNodeTree) :
    t.initialize_direct_links.m_nodes.map (fun vnode => vnode.m_bnode) =
      t.m_nodes.map (fun vnode => vnode.m_bnode) := by
  unfold VirtualNodeTree.initialize_direct_links
  generalize t.m_nodes = nodes
  generalize t.m_links = links
  induction links generalizing nodes with
  | nil => rfl
  | cons vlink rest ih =>
    simp only [List.foldl_cons]
    simp only at ih
    rw [ih]
    unfold modify_socket
    rw [modify_at_map]
    intro vnode
    split <;> rfl

theorem initialize_links_bnodes (pass_through : bNode → Bool) (t : VirtualNodeTree) :
    (t.initialize_links pass_through).m_nodes.map (fun vnode => vnode.m_bnode) =
      t.m_nodes.map (fun vnode => vnode.m_bnode) := by
  unfold VirtualNodeTree.initialize_links
  simp only
  rw [map_indexed_map _ (fun vnode : VirtualNode => vnode.m_bnode)
    (fun vnode : VirtualNode => vnode.m_bnode)]
  intro i vnode
  rfl

theorem positions_with_idname_eq_nil (name : String) :
    ∀ (bnodes : List bNode) (start : Nat), (∀ bnode ∈ bnodes, bnode.idname ≠ name) →
      positions_with_idname name start bnodes = [] := by
  intro bnodes
  induction bnodes with
  | nil => intro start _; rfl
  | cons bnode rest ih =>
    intro start h
    have h1 : (bnode.idname == name) = false := by
      simpa using h bnode (List.mem_cons_self _ _)
    have h2 := ih (start + 1) (fun b hb => h b (List.mem_cons_of_mem _ hb))
    unfold positions_with_idname at h2 ⊢
    simp [List.enumFrom_cons, List.filter_cons, h1, h2]

theorem positions_with_idname_cons (name : String) (start : Nat) (bnode : bNode)
    (rest : List bNode) :
    positions_with_idname name start (bnode :: rest) =
      (if bnode.idname = name then [start] else []) ++
        positions_with_idname name (start + 1) rest := by
  unfold positions_with_idname
  by_cases h : bnode.idname = name
  · simp [List.enumFrom_cons, List.filter_cons, h]
  · have h1 : (bnode.idname == name) = false := by simpa using h
    simp [List.enumFrom_cons, List.filter_cons, h, h1]

/-- The handles found are exactly the positions of the entries with the given type-name. -/
theorem mem_positions_with_idname (name : String) :
    ∀ (bnodes : List bNode) (start i : Nat),
      i ∈ positions_with_idname name start bnodes ↔
        start ≤ i ∧ ∃ bnode, bnodes[i - start]? = some bnode ∧ bnode.idname = name := by
  intro bnodes
  induction bnodes with
  | nil => intro start i; simp [positions_with_idname]
  | cons bnode rest ih =>
    intro start i
    rw [positions_with_idname_cons, List.mem_append, ih]
    constructor
    · rintro (h | ⟨h1, b, h2, h3⟩)
      · by_cases hb : bnode.idname = name
        · rw [if_pos hb, List.mem_singleton] at h
          subst h
          exact ⟨Nat.le_refl _, bnode, by simp, hb⟩
        · rw [if_neg hb] at h
          cases h
      · refine ⟨by omega, b, ?_, h3⟩
        have : i - start = (i - (start + 1)) + 1 := by omega
        rw [this, List.getElem?_cons_succ]
        exact h2
    · rintro ⟨h1, b, h2, h3⟩
      by_cases hi : i = start
      · subst hi
        simp only [Nat.sub_self, List.getElem?_cons_zero, Option.some.injEq] at h2
        subst h2
        exact Or.inl (by rw [if_pos h3]; exact List.mem_singleton.mpr rfl)
      · refine Or.inr ⟨by omega, b, ?_, h3⟩
        have : i - start = (i - (start + 1)) + 1 := by omega
        rw [this, List.getElem?_cons_succ] at h2
        exact h2

/-- The handles found come in increasing order, which is the order of insertion. -/
theorem positions_with_idname_increasing (name : String) :
    ∀ (bnodes : List bNode) (start : Nat),
      (positions_with_idname name start bnodes).Pairwise (fun a b => a < b) := by
  intro bnodes
  induction bnodes with
  | nil => intro start; simp [positions_with_idname]
  | cons bnode rest ih =>
    intro start
    rw [positions_with_idname_cons, List.pairwise_append]
    refine ⟨?_, ih (start + 1), ?_⟩
    · by_cases hb : bnode.idname = name
      · rw [if_pos hb]; exact List.pairwise_singleton _ _
      · rw [if_neg hb]; exact List.Pairwise.nil
    · intro a ha b hb
      have hb1 := ((mem_positions_with_idname name rest (start + 1) b).mp hb).1
      by_cases hn : bnode.idname = name
      · rw [if_pos hn, List.mem_singleton] at ha
        subst ha
        exact hb1
      · rw [if_neg hn] at ha
        cases ha

/-- Population appends the inserted authoring nodes, in call order, to the node list and
leaves the multimap alone. -/
theorem populate_bnodes :
    ∀ (calls : List PopulationCall) (t t1 : VirtualNodeTree),
      calls.foldlM PopulationCall.run t = .ok t1 →
        t1.m_nodes.map (fun vnode => vnode.m_bnode) =
            t.m_nodes.map (fun vnode => vnode.m_bnode) ++ inserted_bnodes calls ∧
          t1.m_nodes_by_idname = t.m_nodes_by_idname := by
  intro calls
  induction calls with
  | nil =>
    intro t t1 h
    simp only [List.foldlM_nil, pure, Except.pure, Except.ok.injEq] at h
    subst h
    simp [inserted_bnodes]
  | cons call rest ih =>
    intro t t1 h
    rw [List.foldlM_cons] at h
    cases hf : t.m_frozen with
    | true =>
      cases call <;>
        simp [PopulationCall.run, VirtualNodeTree.add_bnode, VirtualNodeTree.add_link,
          BLI_assert, hf, bind, Except.bind] at h
    | false =>
      cases call with
      | add_bnode bnode =>
        simp only [PopulationCall.run, VirtualNodeTree.add_bnode, BLI_assert, hf, bind,
          Except.bind, pure, Except.pure, Bool.not_false, if_true] at h
        obtain ⟨h1, h2⟩ := ih _ t1 h
        rw [h1, h2]
        simp [inserted_bnodes]
      | add_link a b =>
        simp only [PopulationCall.run, VirtualNodeTree.add_link, BLI_assert, hf, bind,
          Except.bind, pure, Except.pure, Bool.not_false, if_true] at h
        obtain ⟨h1, h2⟩ := ih _ t1 h
        rw [h1, h2]
        simp [inserted_bnodes]

/-- Freezing an unfrozen snapshot returns the snapshot after the five indexing steps, marked
frozen. -/
theorem freeze_and_index_ok (pass_through : bNode → Bool) (t : VirtualNodeTree)
    (hfrozen : t.m_frozen = false) :
    t.freeze_and_index pass_through =
      .ok { ((((t.initialize_socket_ids).initialize_direct_links).initialize_links
        pass_through).initialize_inputs_with_links).initialize_nodes_by_idname with
        m_frozen := true } := by
  simp only [VirtualNodeTree.freeze_and_index, BLI_assert, hfrozen, bind, Except.bind, pure,
    Except.pure, Bool.not_false, if_true]

/-- C4: on the frozen snapshot built by any sequence of population calls, node i is the i-th
inserted node, and nodes_with_idname(name) returns, without failing, the handles of the nodes
whose type-name equals name in insertion order; it returns the empty sequence for a name that
no node has. After inserting nodes named "Add", "Add", "Mul", nodes_with_idname("Add") is the
first two nodes in insertion order and nodes_with_idname("Sub") is empty. -/
theorem nodes_with_idname_in_insertion_order (pass_through : bNode → Bool) :
    (∀ calls : List PopulationCall,
      ∃ t, build pass_through calls = .ok t ∧ t.is_frozen = true ∧
        t.m_nodes.map (fun vnode => vnode.m_bnode) = inserted_bnodes calls ∧
        (∀ name, t.nodes_with_idname name =
          .ok (positions_with_idname name 0 (inserted_bnodes calls))) ∧
        (∀ name, ∃ found, t.nodes_with_idname name = .ok found ∧
          found.Pairwise (fun a b => a < b) ∧
          ∀ i, i ∈ found ↔ ∃ vnode, t.m_nodes[i]? = some vnode ∧ vnode.idname = name) ∧
        (∀ name, (∀ vnode ∈ t.m_nodes, vnode.idname ≠ name) →
          t.nodes_with_idname name = .ok [])) ∧
    (∃ t, build pass_through
        [.add_bnode (example_bare "Add"), .add_bnode (example_bare "Add"),
          .add_bnode (example_bare "Mul")] = .ok t ∧
      t.nodes_with_idname "Add" = .ok [0, 1] ∧
      t.nodes_with_idname "Sub" = .ok []) := by
  have general : ∀ calls : List PopulationCall,
      ∃ t, build pass_through calls = .ok t ∧ t.is_frozen = true ∧
        t.m_nodes.map (fun vnode => vnode.m_bnode) = inserted_bnodes calls ∧
        (∀ name, t.nodes_with_idname name =
          .ok (positions_with_idname name 0 (inserted_bnodes calls))) := by
    intro calls
    obtain ⟨t0, h0, hfrozen, _⟩ := populate_ok calls {} rfl
    obtain ⟨hb, hm⟩ := populate_bnodes calls {} t0 h0
    have hnodes : (((t0.initialize_socket_ids).initialize_direct_links).initialize_links
        pass_through).m_nodes.map (fun vnode => vnode.m_bnode) = inserted_bnodes calls := by
      rw [initialize_links_bnodes, initialize_direct_links_bnodes]
      show (VirtualNodeTree.assign_node_ids t0.m_socket_counter t0.m_nodes).1.map
        (fun vnode => vnode.m_bnode) = _
      rw [assign_node_ids_bnodes, hb]
      rfl
    refine ⟨{ ((((t0.initialize_socket_ids).initialize_direct_links).initialize_links
        pass_through).initialize_inputs_with_links).initialize_nodes_by_idname with
        m_frozen := true }, ?_, rfl, hnodes, ?_⟩
    · simp only [build, h0, bind, Except.bind]
      exact freeze_and_index_ok pass_through t0 hfrozen
    · intro name
      simp only [VirtualNodeTree.nodes_with_idname, BLI_assert, bind, Except.bind, pure,
        Except.pure, if_true, VirtualNodeTree.initialize_nodes_by_idname,
        VirtualNodeTree.initialize_inputs_with_links]
      rw [add_nodes_by_idname_lookup, hnodes]
      have hm0 : (((t0.initialize_socket_ids).initialize_direct_links).initialize_links
          pass_through).m_nodes_by_idname = [] := hm
      rw [hm0]
      rfl
  constructor
  · intro calls
    obtain ⟨t, h1, h2, h3, h4⟩ := general calls
    refine ⟨t, h1, h2, h3, h4, ?_, ?_⟩
    · intro name
      refine ⟨_, h4 name, positions_with_idname_increasing name _ 0, ?_⟩
      intro i
      rw [mem_positions_with_idname, ← h3, Nat.sub_zero, List.getElem?_map]
      constructor
      · rintro ⟨_, b, hb1, hb2⟩
        cases hv : t.m_nodes[i]? with
        | none => rw [hv] at hb1; cases hb1
        | some vnode =>
          rw [hv] at hb1
          simp only [Option.map_some', Option.some.injEq] at hb1
          exact ⟨vnode, rfl, by rw [VirtualNode.idname, hb1]; exact hb2⟩
      · rintro ⟨vnode, hv1, hv2⟩
        exact ⟨Nat.zero_le _, vnode.m_bnode, by rw [hv1]; rfl, hv2⟩
    intro name hname
    rw [h4 name, positions_with_idname_eq_nil]
    intro bnode hmem
    rw [← h3] at hmem
    obtain ⟨vnode, hv, hvb⟩ := List.mem_map.mp hmem
    have := hname vnode hv
    simp only [VirtualNode.idname, hvb] at this
    exact this
  · obtain ⟨t, h1, _, _, h4⟩ := general
      [.add_bnode (example_bare "Add"), .add_bnode (example_bare "Add"),
        .add_bnode (example_bare "Mul")]
    exact ⟨t, h1, by rw [h4 "Add"]; decide, by rw [h4 "Sub"]; decide⟩

/-! ## Precondition checks of the query surface -/

/-- C5: each of inputs_with_links(), nodes_with_idname(name), VirtualSocket::direct_links()
and VirtualSocket::links() fails the frozen assertion on a snapshot that is not frozen, and
returns the stored list, without failing, on a frozen one. -/
theorem index_queries_check_frozen (t : VirtualNodeTree) (name : String)
    (vsocket : VirtualSocket) :
    t.inputs_with_links =
      (if t.is_frozen = true then .ok t.m_inputs_with_links else .error .assertion) ∧
    t.nodes_with_idname name =
      (if t.is_frozen = true then .ok (t.m_nodes_by_idname.lookup_default name)
        else .error .assertion) ∧
    vsocket.direct_links t =
      (if t.is_frozen = true then .ok vsocket.m_direct_links else .error .assertion) ∧
    vsocket.links t =
      (if t.is_frozen = true then .ok vsocket.m_links else .error .assertion) := by
  cases h : t.m_frozen <;>
    simp [VirtualNodeTree.inputs_with_links, VirtualNodeTree.nodes_with_idname,
      VirtualSocket.direct_links, VirtualSocket.links, VirtualNodeTree.is_frozen, BLI_assert,
      h, bind, Except.bind, pure, Except.pure]

/-- C6, as the code has it: nodes(), links() and socket_count() carry no precondition
check; on every snapshot, frozen or not, they return the stored node list, the stored link
list and the socket counter. -/
theorem listing_queries_unchecked (t : VirtualNodeTree) :
    t.nodes = .ok t.m_nodes ∧ t.links = .ok t.m_links ∧
      t.socket_count = .ok t.m_socket_counter :=
  ⟨rfl, rfl, rfl⟩

/-- C6 fails as stated: on the populated snapshot of the scenario, which is not frozen,
nodes(), links() and socket_count() return a value instead of being rejected. -/
theorem listing_queries_not_rejected_when_unfrozen :
    unfrozen_tree.is_frozen = false ∧
    unfrozen_tree.nodes = .ok unfrozen_tree.m_nodes ∧ unfrozen_tree.m_nodes.length = 2 ∧
    unfrozen_tree.links = .ok unfrozen_tree.m_links ∧ unfrozen_tree.m_links.length = 1 ∧
    unfrozen_tree.socket_count = .ok unfrozen_tree.m_socket_counter := by
  decide

/-- C7, as the code has it: VirtualSocket::id() carries no precondition check; for every
socket, whether or not its snapshot is frozen, it returns the stored m_id. -/
theorem socket_id_unchecked (vsocket : VirtualSocket) :
    vsocket.id = .ok vsocket.m_id :=
  rfl

/-- C7 fails as stated: on the populated snapshot of the scenario, which is not frozen, id()
returns a value for each of the four sockets. -/
theorem socket_id_not_rejected_when_unfrozen :
    unfrozen_tree.is_frozen = false ∧ unfrozen_tree.all_sockets.length = 4 ∧
    unfrozen_tree.all_sockets.map (fun s => s.id) =
      unfrozen_tree.all_sockets.map (fun s => Except.ok s.m_id) := by
  decide

/-! ## Positional access with an expected name -/

/-- C8: for every node, every index smaller than the number of its inputs and every expected
name, input(index, expected_name) returns the socket that input(index) returns, and likewise
for an index smaller than the number of its outputs and output(index, expected_name); the
only other outcome is a failed assertion, which happens exactly when DEBUG is defined and the
name of the socket differs from the expected name. -/
theorem expected_name_checked_in_debug_only (DEBUG : Bool) (vnode : VirtualNode)
    (index : Nat) (expected_name : String) :
    (index < vnode.m_inputs.length →
      ∃ vsocket, vnode.m_inputs[index]? = some vsocket ∧ vnode.input index = .ok vsocket ∧
        vnode.input_expected DEBUG index expected_name =
          (if DEBUG = true ∧ vsocket.name ≠ expected_name then .error .assertion
            else .ok vsocket)) ∧
    (index < vnode.m_outputs.length →
      ∃ vsocket, vnode.m_outputs[index]? = some vsocket ∧ vnode.output index = .ok vsocket ∧
        vnode.output_expected DEBUG index expected_name =
          (if DEBUG = true ∧ vsocket.name ≠ expected_name then .error .assertion
            else .ok vsocket)) := by
  constructor
  · intro hi
    refine ⟨vnode.m_inputs[index], List.getElem?_eq_getElem hi, ?_, ?_⟩
    · simp [VirtualNode.input, array_get, List.getElem?_eq_getElem hi]
    · cases DEBUG <;> by_cases hname : vnode.m_inputs[index].name = expected_name <;>
        simp [VirtualNode.input_expected, array_get, List.getElem?_eq_getElem hi, BLI_assert,
          bind, Except.bind, pure, Except.pure, hname]
  · intro hj
    refine ⟨vnode.m_outputs[index], List.getElem?_eq_getElem hj, ?_, ?_⟩
    · simp [VirtualNode.output, array_get, List.getElem?_eq_getElem hj]
    · cases DEBUG <;> by_cases hname : vnode.m_outputs[index].name = expected_name <;>
        simp [VirtualNode.output_expected, array_get, List.getElem?_eq_getElem hj, BLI_assert,
          bind, Except.bind, pure, Except.pure, hname]

/-- C8 in a debug build and with a name that differs: at the second input of a node without
outputs, and at the output of a node without inputs. -/
theorem expected_name_checked_in_debug_only_witness :
    1 < example_vnode_without_outputs.m_inputs.length ∧
    0 < example_vnode_without_inputs.m_outputs.length ∧
    (∃ vsocket, example_vnode_without_outputs.m_inputs[1]? = some vsocket ∧
      example_vnode_without_outputs.input 1 = .ok vsocket ∧
      example_vnode_without_outputs.input_expected true 1 "A" =
        (if true = true ∧ vsocket.name ≠ "A" then .error .assertion else .ok vsocket)) ∧
    (∃ vsocket, example_vnode_without_inputs.m_outputs[0]? = some vsocket ∧
      example_vnode_without_inputs.output 0 = .ok vsocket ∧
      example_vnode_without_inputs.output_expected true 0 "A" =
        (if true = true ∧ vsocket.name ≠ "A" then .error .assertion else .ok vsocket)) :=
  ⟨by decide, by decide,
    (expected_name_checked_in_debug_only true example_vnode_without_outputs 1 "A").1
      (by decide),
    (expected_name_checked_in_debug_only true example_vnode_without_inputs 0 "A").2
      (by decide)⟩

/-! ## Direction of a socket -/

section Repeat

variable {T : Type}

theorem map_socket_idnames_loop_length (map : StringMap T) (d : T) :
    ∀ (ss : List VirtualSocket) (r r1 : List T),
      VirtualNodeTree.map_socket_idnames_loop map d ss r = .ok r1 → r1.length = r.length := by
  intro ss
  induction ss with
  | nil =>
    intro r r1 h
    simp only [VirtualNodeTree.map_socket_idnames_loop, List.foldlM_nil, pure, Except.pure,
      Except.ok.injEq] at h
    rw [← h]
  | cons s rest ih =>
    intro r r1 h
    simp only [VirtualNodeTree.map_socket_idnames_loop, List.foldlM_cons, array_set] at h
    by_cases hs : s.m_id < r.length
    · simp only [hs, if_true, bind, Except.bind] at h
      rw [ih _ r1 h, List.length_set]
    · simp [hs, bind, Except.bind] at h

/-- A write at `i` before the loop is invisible once `i` is written again after it. -/
theorem map_socket_idnames_loop_set (map : StringMap T) (d : T) (i : Nat) (v : T) :
    ∀ (ss : List VirtualSocket) (r r1 : List T),
      VirtualNodeTree.map_socket_idnames_loop map d ss r = .ok r1 →
        ∃ r2, VirtualNodeTree.map_socket_idnames_loop map d ss (r.set i v) = .ok r2 ∧
          r2.set i v = r1.set i v := by
  intro ss
  induction ss with
  | nil =>
    intro r r1 h
    simp only [VirtualNodeTree.map_socket_idnames_loop, List.foldlM_nil, pure, Except.pure,
      Except.ok.injEq] at h
    exact ⟨r.set i v, rfl, by rw [← h, List.set_set]⟩
  | cons s rest ih =>
    intro r r1 h
    simp only [VirtualNodeTree.map_socket_idnames_loop, List.foldlM_cons, array_set] at h ⊢
    by_cases hs : s.m_id < r.length
    · simp only [hs, if_true, bind, Except.bind, List.length_set] at h ⊢
      by_cases hi : s.m_id = i
      · rw [← hi, List.set_set]
        exact ⟨r1, h, rfl⟩
      · rw [List.set_comm v (map.lookup_default s.idname d) r
          (fun hc : i = s.m_id => hi hc.symm)]
        exact ih _ r1 h
    · simp [hs, bind, Except.bind] at h

/-- Running the loop of writes again on its own result changes nothing. -/
theorem map_socket_idnames_loop_again (map : StringMap T) (d : T) :
    ∀ (ss : List VirtualSocket) (r r1 : List T),
      VirtualNodeTree.map_socket_idnames_loop map d ss r = .ok r1 →
        VirtualNodeTree.map_socket_idnames_loop map d ss r1 = .ok r1 := by
  intro ss
  induction ss using List.reverseRecOn with
  | nil =>
    intro r r1 _
    rfl
  | append_singleton init s ih =>
    intro r r1 h
    rw [map_socket_idnames_loop_append] at h ⊢
    cases h0 : VirtualNodeTree.map_socket_idnames_loop map d init r with
    | error e =>
      rw [h0] at h
      cases h
    | ok r0 =>
      rw [h0] at h
      simp only [bind, Except.bind, VirtualNodeTree.map_socket_idnames_loop,
        List.foldlM_cons, List.foldlM_nil, array_set, pure, Except.pure] at h
      by_cases hs : s.m_id < r0.length
      · simp only [hs, if_true, Except.ok.injEq] at h
        obtain ⟨r2, h2, h3⟩ := map_socket_idnames_loop_set map d s.m_id
          (map.lookup_default s.idname d) init r0 r0 (ih r r0 h0)
        rw [h] at h2 h3
        have hlen : r2.length = r0.length := by
          have := congrArg List.length h3
          rw [List.length_set, ← h, List.length_set] at this
          exact this
        rw [h2]
        simp only [bind, Except.bind, VirtualNodeTree.map_socket_idnames_loop,
          List.foldlM_cons, List.foldlM_nil, array_set, pure, Except.pure, hlen, hs, if_true]
        rw [h3]
      · rw [if_neg hs] at h
        cases h

/-- Running map_socket_idnames again on the array it has filled changes nothing. -/
theorem map_socket_idnames_again (t : VirtualNodeTree) (map : StringMap T) (d : T)
    (r r1 : List T) (h : t.map_socket_idnames map d r = .ok r1) :
    t.map_socket_idnames map d r1 = .ok r1 := by
  by_cases hlen : r.length = t.m_socket_counter
  · simp only [VirtualNodeTree.map_socket_idnames, VirtualNodeTree.socket_count, pure,
      Except.pure, bind, Except.bind, hlen, BLI_assert, beq_self_eq_true, if_true] at h
    have h1 := (map_socket_idnames_nodes map d t.m_nodes r).symm.trans h
    have hlen1 : r1.length = t.m_socket_counter := by
      rw [map_socket_idnames_loop_length map d _ r r1 h1, hlen]
    simp only [VirtualNodeTree.map_socket_idnames, VirtualNodeTree.socket_count, pure,
      Except.pure, bind, Except.bind, hlen1, BLI_assert, beq_self_eq_true, if_true]
    exact (map_socket_idnames_nodes map d t.m_nodes r1).trans
      (map_socket_idnames_loop_again map d _ r r1 h1)
  · have hne : (r.length == t.m_socket_counter) = false := by simpa using hlen
    simp [VirtualNodeTree.map_socket_idnames, VirtualNodeTree.socket_count, pure,
      Except.pure, bind, Except.bind, hne, BLI_assert] at h

/-- The loop of writes returns when every identity is an index of the array. -/
theorem map_socket_idnames_loop_ok (map : StringMap T) (d : T) :
    ∀ (ss : List VirtualSocket) (r : List T), (∀ s ∈ ss, s.m_id < r.length) →
      ∃ r1, VirtualNodeTree.map_socket_idnames_loop map d ss r = .ok r1 := by
  intro ss
  induction ss with
  | nil =>
    intro r _
    exact ⟨r, rfl⟩
  | cons s rest ih =>
    intro r h
    have hs : s.m_id < r.length := h s (List.mem_cons_self _ _)
    simp only [VirtualNodeTree.map_socket_idnames_loop, List.foldlM_cons, array_set, hs,
      if_true, bind, Except.bind]
    exact ih _ (fun s1 hs1 => by
      rw [List.length_set]
      exact h s1 (List.mem_cons_of_mem _ hs1))

/-- The call map_socket_idnames returns when the array has one slot per socket and every
identity is below the socket count. -/
theorem map_socket_idnames_ok (t : VirtualNodeTree) (map : StringMap T) (d : T)
    (r : List T) (hlen : r.length = t.m_socket_counter)
    (hids : ∀ s ∈ t.all_sockets, s.m_id < t.m_socket_counter) :
    ∃ r1, t.map_socket_idnames map d r = .ok r1 := by
  obtain ⟨r1, h1⟩ := map_socket_idnames_loop_ok map d t.all_sockets r
    (fun s hs => by rw [hlen]; exact hids s hs)
  refine ⟨r1, ?_⟩
  simp only [VirtualNodeTree.map_socket_idnames, VirtualNodeTree.socket_count, pure,
    Except.pure, bind, Except.bind, hlen, BLI_assert, beq_self_eq_true, if_true]
  exact (map_socket_idnames_nodes map d t.m_nodes r).trans h1

end Repeat

/-- Reading the state within a call hands back the state and leaves it as it is. -/
theorem run_get (t : VirtualNodeTree) :
    StateT.run (ExceptT.run (get : Call VirtualNodeTree)) t = (.ok t, t) := rfl

/-- What each method of the query surface does as a call: its outcome, and the state after the
call, which is the state before it. -/
theorem query_run_eq (T : Type) (t : VirtualNodeTree) (q : Query T) :
    q.run t =
      ((match q with
        | .nodes => .ok (.nodes t.m_nodes)
        | .links => .ok (.links t.m_links)
        | .inputs_with_links =>
          if t.m_frozen then .ok (.socket_refs t.m_inputs_with_links) else .error .assertion
        | .nodes_with_idname idname =>
          if t.m_frozen then .ok (.node_refs (t.m_nodes_by_idname.lookup_default idname))
          else .error .assertion
        | .is_frozen => .ok (.flag t.m_frozen)
        | .socket_count => .ok (.number t.m_socket_counter)
        | .node_inputs vnode =>
          (array_get t.m_nodes vnode).map (fun n => Answer.sockets n.m_inputs)
        | .node_outputs vnode =>
          (array_get t.m_nodes vnode).map (fun n => Answer.sockets n.m_outputs)
        | .socket_id vsocket =>
          match socket_at t.m_nodes vsocket with
          | some s => .ok (.number s.m_id)
          | none => .error .out_of_bounds
        | .socket_direct_links vsocket =>
          match socket_at t.m_nodes vsocket with
          | some s =>
            if t.m_frozen then .ok (.socket_refs s.m_direct_links) else .error .assertion
          | none => .error .out_of_bounds
        | .socket_links vsocket =>
          match socket_at t.m_nodes vsocket with
          | some s => if t.m_frozen then .ok (.socket_refs s.m_links) else .error .assertion
          | none => .error .out_of_bounds
        | .map_socket_idnames map default_value r_result =>
          (t.map_socket_idnames map default_value r_result).map Answer.array), t) := by
  cases q with
  | nodes => rfl
  | links => rfl
  | is_frozen => rfl
  | socket_count => rfl
  | inputs_with_links =>
    cases h : t.m_frozen <;>
      simp [Query.run, Query.call, Calls.VirtualNodeTree.inputs_with_links, Call.of_except,
        BLI_assert, h, run_get, Id.run, Except.map]
  | nodes_with_idname idname =>
    cases h : t.m_frozen <;>
      simp [Query.run, Query.call, Calls.VirtualNodeTree.nodes_with_idname, Call.of_except,
        BLI_assert, h, run_get, Id.run, Except.map]
  | node_inputs vnode =>
    cases h : array_get t.m_nodes vnode <;>
      simp [Query.run, Query.call, Calls.VirtualNode.inputs, Call.deref_node, Call.of_except,
        h, run_get, Id.run, Except.map]
  | node_outputs vnode =>
    cases h : array_get t.m_nodes vnode <;>
      simp [Query.run, Query.call, Calls.VirtualNode.outputs, Call.deref_node, Call.of_except,
        h, run_get, Id.run, Except.map]
  | socket_id vsocket =>
    cases h : socket_at t.m_nodes vsocket <;>
      simp [Query.run, Query.call, Calls.VirtualSocket.id, Call.deref_socket, Call.of_except,
        h, run_get, Id.run, Except.map]
  | socket_direct_links vsocket =>
    cases h : socket_at t.m_nodes vsocket <;> cases hf : t.m_frozen <;>
      simp [Query.run, Query.call, Calls.VirtualSocket.direct_links, Call.deref_socket,
        Calls.VirtualNodeTree.is_frozen, BLI_assert,
        Call.of_except, h, hf, run_get, Id.run, Except.map]
  | socket_links vsocket =>
    cases h : socket_at t.m_nodes vsocket <;> cases hf : t.m_frozen <;>
      simp [Query.run, Query.call, Calls.VirtualSocket.links, Call.deref_socket,
        Calls.VirtualNodeTree.is_frozen, BLI_assert,
        Call.of_except, h, hf, run_get, Id.run, Except.map]
  | map_socket_idnames map d r =>
    cases h : t.map_socket_idnames map d r <;>
      simp [Query.run, Query.call, Calls.VirtualNodeTree.map_socket_idnames, Call.of_except,
        h, run_get, Id.run, Except.map]

/-- The calls hand back what the methods of the header return when they are read as
functions of the snapshot, of a node or of a socket. -/
theorem calls_agree_with_methods (T : Type) (t : VirtualNodeTree) :
    (Query.nodes : Query T).run t = (t.nodes.map Answer.nodes, t) ∧
    (Query.links : Query T).run t = (t.links.map Answer.links, t) ∧
    (Query.inputs_with_links : Query T).run t =
      (t.inputs_with_links.map Answer.socket_refs, t) ∧
    (∀ idname, (Query.nodes_with_idname idname : Query T).run t =
      ((t.nodes_with_idname idname).map Answer.node_refs, t)) ∧
    (Query.is_frozen : Query T).run t = (.ok (.flag t.is_frozen), t) ∧
    (Query.socket_count : Query T).run t = (t.socket_count.map Answer.number, t) ∧
    (∀ vnode, (Query.node_inputs vnode : Query T).run t =
      ((array_get t.m_nodes vnode >>= VirtualNode.inputs).map Answer.sockets, t)) ∧
    (∀ vnode, (Query.node_outputs vnode : Query T).run t =
      ((array_get t.m_nodes vnode >>= VirtualNode.outputs).map Answer.sockets, t)) ∧
    (∀ vsocket s, socket_at t.m_nodes vsocket = some s →
      (Query.socket_id vsocket : Query T).run t = (s.id.map Answer.number, t) ∧
      (Query.socket_direct_links vsocket : Query T).run t =
        ((s.direct_links t).map Answer.socket_refs, t) ∧
      (Query.socket_links vsocket : Query T).run t =
        ((s.links t).map Answer.socket_refs, t)) ∧
    (∀ (map : StringMap T) default_value r_result,
      (Query.map_socket_idnames map default_value r_result).run t =
        ((t.map_socket_idnames map default_value r_result).map Answer.array, t)) := by
  refine ⟨rfl, rfl, ?_, ?_, rfl, rfl, ?_, ?_, ?_, ?_⟩
  · rw [query_run_eq]
    cases h : t.m_frozen <;>
      simp [VirtualNodeTree.inputs_with_links, BLI_assert, h, bind, Except.bind, pure,
        Except.pure, Except.map]
  · intro idname
    rw [query_run_eq]
    cases h : t.m_frozen <;>
      simp [VirtualNodeTree.nodes_with_idname, BLI_assert, h, bind, Except.bind, pure,
        Except.pure, Except.map]
  · intro vnode
    rw [query_run_eq]
    cases h : array_get t.m_nodes vnode <;>
      simp [h, VirtualNode.inputs, bind, Except.bind, pure, Except.pure, Except.map]
  · intro vnode
    rw [query_run_eq]
    cases h : array_get t.m_nodes vnode <;>
      simp [h, VirtualNode.outputs, bind, Except.bind, pure, Except.pure, Except.map]
  · intro vsocket s hs
    refine ⟨?_, ?_, ?_⟩
    · rw [query_run_eq]
      simp [hs, VirtualSocket.id, pure, Except.pure, Except.map]
    · rw [query_run_eq]
      cases h : t.m_frozen <;>
        simp [hs, VirtualSocket.direct_links, VirtualNodeTree.is_frozen, BLI_assert, h, bind,
          Except.bind, pure, Except.pure, Except.map]
    · rw [query_run_eq]
      cases h : t.m_frozen <;>
        simp [hs, VirtualSocket.links, VirtualNodeTree.is_frozen, BLI_assert, h, bind,
          Except.bind, pure, Except.pure, Except.map]
  · intro map d r
    rw [query_run_eq]

/-- C10: on a frozen snapshot every call of the query surface (nodes(), links(),
inputs_with_links(), nodes_with_idname(name), is_frozen(), socket_count(), inputs() and
outputs() of a node, id(), direct_links() and links() of a socket, map_socket_idnames) leaves
the state of the snapshot as it was and, called again with the same arguments on the state it
has left, has the same outcome. A call made on the snapshot or on a node or socket of the
snapshot returns a result, no assertion failing; so does map_socket_idnames when the array has
one slot per socket and the socket identities are below the socket count. For
map_socket_idnames with the same table and default, a further call on the array that the first
call filled leaves that array as it is. -/
theorem queries_repeatable (T : Type) (t : VirtualNodeTree) (hfrozen : t.is_frozen = true)
    (q : Query T) :
    (q.run t).2 = t ∧ q.run (q.run t).2 = q.run t ∧
      (q.applicable t = true → ∃ a, q.run t = (.ok a, t)) ∧
      (∀ map default_value r_result r, q = .map_socket_idnames map default_value r_result →
        (q.run t).1 = .ok (.array r) →
        (Query.map_socket_idnames map default_value r).run t = (.ok (.array r), t)) := by
  have hstate : (q.run t).2 = t := by rw [query_run_eq]
  have hf : t.m_frozen = true := hfrozen
  refine ⟨hstate, by rw [hstate], ?_, ?_⟩
  · intro hvalid
    cases q with
    | map_socket_idnames map d r =>
      simp only [Query.applicable, Bool.and_eq_true, beq_iff_eq, List.all_eq_true,
        decide_eq_true_eq] at hvalid
      obtain ⟨r1, h1⟩ := map_socket_idnames_ok t map d r hvalid.1 hvalid.2
      refine ⟨.array r1, ?_⟩
      rw [query_run_eq]
      simp [h1, Except.map]
    | nodes => exact ⟨_, query_run_eq T t _⟩
    | links => exact ⟨_, query_run_eq T t _⟩
    | is_frozen => exact ⟨_, query_run_eq T t _⟩
    | socket_count => exact ⟨_, query_run_eq T t _⟩
    | inputs_with_links =>
      refine ⟨.socket_refs t.m_inputs_with_links, ?_⟩
      rw [query_run_eq]
      simp [hf]
    | nodes_with_idname idname =>
      refine ⟨.node_refs (t.m_nodes_by_idname.lookup_default idname), ?_⟩
      rw [query_run_eq]
      simp [hf]
    | node_inputs vnode =>
      have hlt : vnode < t.m_nodes.length := by simpa [Query.applicable] using hvalid
      refine ⟨.sockets t.m_nodes[vnode].m_inputs, ?_⟩
      rw [query_run_eq]
      simp [array_get, List.getElem?_eq_getElem hlt, Except.map]
    | node_outputs vnode =>
      have hlt : vnode < t.m_nodes.length := by simpa [Query.applicable] using hvalid
      refine ⟨.sockets t.m_nodes[vnode].m_outputs, ?_⟩
      rw [query_run_eq]
      simp [array_get, List.getElem?_eq_getElem hlt, Except.map]
    | socket_id vsocket =>
      obtain ⟨s, hs⟩ : ∃ s, socket_at t.m_nodes vsocket = some s :=
        Option.isSome_iff_exists.mp hvalid
      refine ⟨.number s.m_id, ?_⟩
      rw [query_run_eq]
      simp [hs]
    | socket_direct_links vsocket =>
      obtain ⟨s, hs⟩ : ∃ s, socket_at t.m_nodes vsocket = some s :=
        Option.isSome_iff_exists.mp hvalid
      refine ⟨.socket_refs s.m_direct_links, ?_⟩
      rw [query_run_eq]
      simp [hs, hf]
    | socket_links vsocket =>
      obtain ⟨s, hs⟩ : ∃ s, socket_at t.m_nodes vsocket = some s :=
        Option.isSome_iff_exists.mp hvalid
      refine ⟨.socket_refs s.m_links, ?_⟩
      rw [query_run_eq]
      simp [hs, hf]
  · intro map d r0 r hq hrun
    subst hq
    rw [query_run_eq] at hrun ⊢
    simp only at hrun ⊢
    cases h : t.map_socket_idnames map d r0 with
    | error e => simp [h, Except.map] at hrun
    | ok r1 =>
      simp only [h, Except.map, Except.ok.injEq, Answer.array.injEq] at hrun
      subst hrun
      rw [map_socket_idnames_again t map d r0 r1 h]
      rfl

/-- C10 at the frozen snapshot of the scenario: the call map_socket_idnames with the table
("TypeA" -> 1), default 0 and an array of four entries, and the call links() on the input
socket of the second node. -/
theorem queries_repeatable_witness :
    scenario_tree.is_frozen = true ∧
    ((Query.map_socket_idnames [("TypeA", 1)] 0 [9, 9, 9, 9]).run scenario_tree).2 =
      scenario_tree ∧
    (Query.map_socket_idnames [("TypeA", 1)] 0 [9, 9, 9, 9]).run
        ((Query.map_socket_idnames [("TypeA", 1)] 0 [9, 9, 9, 9]).run scenario_tree).2 =
      (Query.map_socket_idnames [("TypeA", 1)] 0 [9, 9, 9, 9]).run scenario_tree ∧
    (Query.map_socket_idnames [("TypeA", 1)] 0 [0, 1, 0, 0]).run scenario_tree =
      (.ok (.array [0, 1, 0, 0]), scenario_tree) ∧
    (Query.socket_links { node := 1, is_output := false, index := 0 } : Query Nat).run
        ((Query.socket_links { node := 1, is_output := false, index := 0 } :
          Query Nat).run scenario_tree).2 =
      (.ok (.socket_refs [{ node := 0, is_output := true, index := 0 }]), scenario_tree) ∧
    (∃ a, (Query.socket_links { node := 1, is_output := false, index := 0 } :
      Query Nat).run scenario_tree = (.ok a, scenario_tree)) :=
  have h := queries_repeatable Nat scenario_tree (by decide)
    (Query.map_socket_idnames [("TypeA", 1)] 0 [9, 9, 9, 9])
  have h2 := queries_repeatable Nat scenario_tree (by decide)
    (Query.socket_links { node := 1, is_output := false, index := 0 })
  ⟨by decide, h.1, h.2.1, h.2.2.2 [("TypeA", 1)] 0 [9, 9, 9, 9] [0, 1, 0, 0] rfl rfl,
    h2.2.1.trans rfl, h2.2.2.1 (by decide)⟩

/-! ## A new snapshot -/

/-- C11: a newly constructed snapshot is empty and in the mutable phase: is_frozen() is
false, socket_count() is 0, and nodes() and links() are empty. -/
theorem new_snapshot_is_empty :
    ({} : VirtualNodeTree).is_frozen = false ∧
    ({} : VirtualNodeTree).socket_count = .ok 0 ∧
    ({} : VirtualNodeTree).nodes = .ok [] ∧
    ({} : VirtualNodeTree).links = .ok [] := by
  decide

end BKE

namespace ObjImport

/-! ## Lines of a StringRefStream -/

theorem advance_while_append (p : Char → Bool) :
    ∀ text : List Char, (advance_while p text).1 ++ (advance_while p text).2 = text := by
  intro text
  induction text with
  | nil => rfl
  | cons c rest ih =>
    by_cases hc : p c = true
    · simp [advance_while, hc, ih]
    · simp [advance_while, hc]

theorem advance_while_passed (p : Char → Bool) :
    ∀ text : List Char, ∀ c ∈ (advance_while p text).1, p c = true := by
  intro text
  induction text with
  | nil => intro c hc; simp [advance_while] at hc
  | cons d rest ih =>
    intro c hc
    by_cases hd : p d = true
    · simp only [advance_while, hd, if_true, List.mem_cons] at hc
      rcases hc with rfl | hc
      · exact hd
      · exact ih c hc
    · simp [advance_while, hd] at hc

theorem advance_while_stops (p : Char → Bool) :
    ∀ (text : List Char) (c : Char) (rest : List Char),
      (advance_while p text).2 = c :: rest → p c = false := by
  intro text
  induction text with
  | nil => intro c rest h; simp [advance_while] at h
  | cons d more ih =>
    intro c rest h
    by_cases hd : p d = true
    · simp only [advance_while, hd, if_true] at h
      exact ih c rest h
    · simp only [advance_while, hd] at h
      simp only [Bool.false_eq_true, if_false, List.cons.injEq] at h
      rw [← h.1]
      simpa using hd

/-- What one call of extract_line does on a stream that has characters left. -/
theorem extract_line_spec (s : StringRefStream) (h : s.remaining ≠ []) :
    s.extract_line.1 ≠ [] ∧
    s.extract_line.1 ++ s.extract_line.2.remaining = s.remaining ∧
    '\n' ∉ s.extract_line.1.dropLast ∧
    (s.extract_line.1.getLast? = some '\n' ∨
      (s.extract_line.2.remaining = [] ∧ '\n' ∉ s.extract_line.1)) := by
  have happ := advance_while_append (fun c => c != '\n') s.remaining
  have hpassed := advance_while_passed (fun c => c != '\n') s.remaining
  have hstop := advance_while_stops (fun c => c != '\n') s.remaining
  unfold StringRefStream.extract_line
  cases hrem : (advance_while (fun c => c != '\n') s.remaining).2 with
  | nil =>
    rw [hrem, List.append_nil] at happ
    simp only [hrem]
    have hno : '\n' ∉ (advance_while (fun c => c != '\n') s.remaining).1 := by
      intro hmem
      have := hpassed _ hmem
      simp at this
    refine ⟨by rw [happ]; exact h, by rw [List.append_nil]; exact happ, ?_,
      Or.inr ⟨trivial, hno⟩⟩
    intro hmem
    exact hno (List.dropLast_subset _ hmem)
  | cons c rest =>
    have hc : c = '\n' := by simpa using hstop c rest hrem
    rw [hrem] at happ
    simp only [hrem]
    subst hc
    refine ⟨by simp, by simpa using happ, ?_, Or.inl (by simp)⟩
    rw [List.dropLast_concat]
    intro hmem
    have := hpassed _ hmem
    simp at this

theorem has_remaining_chars_iff (s : StringRefStream) :
    s.has_remaining_chars = true ↔ s.remaining ≠ [] := by
  cases h : s.remaining <;> simp [StringRefStream.has_remaining_chars, h]

/-- A call of extract_line on a stream that has characters left shortens the stream. -/
theorem extract_line_shortens (s : StringRefStream) (h : s.remaining ≠ []) :
    s.extract_line.2.remaining.length < s.remaining.length := by
  obtain ⟨h1, h2, _, _⟩ := extract_line_spec s h
  have hlen := congrArg List.length h2
  rw [List.length_append] at hlen
  have hpos : 0 < s.extract_line.1.length := List.length_pos.mpr h1
  omega

/-- The line loop with a budget above the number of characters takes the stream apart into
its lines. -/
theorem extract_lines_loop :
    ∀ (fuel : Nat) (stream : StringRefStream) (lines : List StringRef),
      stream.remaining.length + 1 ≤ fuel →
      ∃ found, for_each_line (fun line lines => .ok (lines ++ [line])) fuel stream lines =
          .ok (lines ++ found) ∧
        found.flatten = stream.remaining ∧
        ∀ line ∈ found, line ≠ [] ∧ '\n' ∉ line.dropLast := by
  intro fuel
  induction fuel with
  | zero => intro stream lines h; omega
  | succ fuel ih =>
    intro stream lines h
    by_cases hrem : stream.remaining = []
    · have hno : stream.has_remaining_chars = false := by
        simp [StringRefStream.has_remaining_chars, hrem]
      refine ⟨[], ?_, by simp [hrem], by simp⟩
      simp [for_each_line, hno, pure, Except.pure]
    · have hyes : stream.has_remaining_chars = true := (has_remaining_chars_iff stream).mpr hrem
      obtain ⟨h1, h2, h3, _⟩ := extract_line_spec stream hrem
      have hshort := extract_line_shortens stream hrem
      obtain ⟨found, hrun, hflat, hall⟩ :=
        ih stream.extract_line.2 (lines ++ [stream.extract_line.1]) (by omega)
      refine ⟨stream.extract_line.1 :: found, ?_, ?_, ?_⟩
      · simp only [for_each_line, hyes, if_true, bind, Except.bind]
        rw [hrun, List.append_assoc]
        rfl
      · rw [List.flatten_cons, hflat, h2]
      · intro line hline
        rcases List.mem_cons.mp hline with rfl | hline
        · exact ⟨h1, h3⟩
        · exact hall line hline

/-- C14: on a stream with at least one remaining character, extract_line returns a non-empty
beginning of the remaining text that has no newline except possibly as its last character and
that ends with a newline unless it runs to the end of the text, and it leaves the rest of the
text as remaining; calling extract_line until has_remaining_chars() is false returns lines
whose concatenation is the text. -/
theorem extract_line_takes_one_line (s : StringRefStream)
    (h : s.has_remaining_chars = true) :
    (s.extract_line.1 ≠ [] ∧
      s.extract_line.1 ++ s.extract_line.2.remaining = s.remaining ∧
      '\n' ∉ s.extract_line.1.dropLast ∧
      (s.extract_line.1.getLast? = some '\n' ∨
        (s.extract_line.2.remaining = [] ∧ '\n' ∉ s.extract_line.1))) ∧
    (∀ extra : Nat, ∃ lines,
      extract_lines (s.remaining.length + 1 + extra) s.remaining = .ok lines ∧
      lines.flatten = s.remaining ∧
      ∀ line ∈ lines, line ≠ [] ∧ '\n' ∉ line.dropLast) := by
  refine ⟨extract_line_spec s ((has_remaining_chars_iff s).mp h), ?_⟩
  intro extra
  obtain ⟨found, hrun, hflat, hall⟩ :=
    extract_lines_loop (s.remaining.length + 1 + extra) { remaining := s.remaining } []
      (by simp only []; omega)
  exact ⟨found, by simpa [extract_lines] using hrun, hflat, hall⟩

/-- C14 at the text of two lines "v 1" and "f 2", the second without a final newline. -/
theorem extract_line_takes_one_line_witness :
    ({ remaining := "v 1\nf 2".toList } : StringRefStream).has_remaining_chars = true ∧
    ({ remaining := "v 1\nf 2".toList } : StringRefStream).extract_line =
      ("v 1\n".toList, { remaining := "f 2".toList }) ∧
    ∃ lines, extract_lines (7 + 1 + 0) "v 1\nf 2".toList = .ok lines ∧
      lines.flatten = "v 1\nf 2".toList ∧
      ∀ line ∈ lines, line ≠ [] ∧ '\n' ∉ line.dropLast :=
  ⟨by decide, by decide,
    (extract_line_takes_one_line { remaining := "v 1\nf 2".toList } (by decide)).2 0⟩

/-! ## extract_including_ext -/

theorem startswith_lower_ascii_length :
    ∀ (text ext : StringRef), StringRef.startswith_lower_ascii text ext = true →
      ext.length ≤ text.length := by
  intro text
  induction text with
  | nil =>
    intro ext h
    cases ext with
    | nil => simp
    | cons d other => simp [StringRef.startswith_lower_ascii] at h
  | cons c rest ih =>
    intro ext h
    cases ext with
    | nil => simp
    | cons d other =>
      simp only [StringRef.startswith_lower_ascii, Bool.and_eq_true] at h
      have := ih other h.2
      simp only [List.length_cons]
      omega

/-- With a non-empty extension the loop of extract_including_ext ends within a budget above
the number of remaining characters, never moves the cursor back, and moves it forward when
there are characters left. -/
theorem extract_including_ext_loop_ok (ext : StringRef) (hext : ext ≠ []) :
    ∀ (fuel : Nat) (passed remaining : List Char), remaining.length + 1 ≤ fuel →
      ∃ name rest,
        StringRefStream.extract_including_ext_loop ext fuel passed remaining =
          .ok (name, { remaining := rest }) ∧
        rest.length ≤ remaining.length ∧
        (remaining ≠ [] → rest.length < remaining.length) := by
  have hpos : 0 < ext.length := List.length_pos.mpr hext
  intro fuel
  induction fuel with
  | zero => intro passed remaining h; omega
  | succ fuel ih =>
    intro passed remaining h
    cases remaining with
    | nil => exact ⟨[], [], rfl, Nat.le_refl _, fun h => absurd rfl h⟩
    | cons c rest =>
      by_cases hs : StringRef.startswith_lower_ascii (c :: rest) ext = true
      · have hlen := startswith_lower_ascii_length _ _ hs
        have hdrop : ((c :: rest).drop ext.length).length = (c :: rest).length - ext.length :=
          List.length_drop _ _
        cases hrem : (c :: rest).drop ext.length with
        | nil =>
          refine ⟨passed ++ (c :: rest).take ext.length, [], ?_, by simp, by simp⟩
          simp only [StringRefStream.extract_including_ext_loop, hs, if_true, hrem]
        | cons d more =>
          rw [hrem] at hdrop
          by_cases hd : is_name_end d = true
          · refine ⟨passed ++ (c :: rest).take ext.length, d :: more, ?_, by omega,
              fun _ => by omega⟩
            simp only [StringRefStream.extract_including_ext_loop, hs, if_true, hrem, hd]
          · obtain ⟨name, rest2, hrun, hle, _⟩ :=
              ih (passed ++ (c :: rest).take ext.length) (d :: more) (by omega)
            refine ⟨name, rest2, ?_, by omega, fun _ => by omega⟩
            simp only [StringRefStream.extract_including_ext_loop, hs, if_true, hrem, hd]
            exact hrun
      · obtain ⟨name, rest2, hrun, hle, _⟩ := ih (passed ++ [c]) rest
          (by simp only [List.length_cons] at h; omega)
        refine ⟨name, rest2, ?_, by simp only [List.length_cons]; omega,
          fun _ => by simp only [List.length_cons]; omega⟩
        simp only [StringRefStream.extract_including_ext_loop, hs]
        exact hrun

/-- The characters that a name with the extension ends with, seen from the remaining text. -/
theorem ends_mtl_name_window {text passed remaining : List Char} {k : Nat}
    (htext : text = passed ++ remaining) (hk : ends_mtl_name text k)
    (hp : passed.length + 4 ≤ k) :
    ((remaining.drop (k - 4 - passed.length)).take 4).map Char.toLower =
      ['.', 'm', 't', 'l'] := by
  obtain ⟨hle, ⟨stem, e, htake, he⟩, _⟩ := hk
  have hE : ".mtl".toList = ['.', 'm', 't', 'l'] := rfl
  rw [hE] at he
  have helen : e.length = 4 := by
    have := congrArg List.length he
    simpa using this
  have hlen : (text.take k).length = k := by
    rw [List.length_take]
    omega
  have hstem : stem.length = k - 4 := by
    have := congrArg List.length htake
    rw [hlen, List.length_append, helen] at this
    omega
  have h1 : e = (text.take k).drop (k - 4) := by
    rw [htake, List.drop_left' hstem]
  rw [List.drop_take, show k - (k - 4) = 4 by omega, htext,
    List.drop_append_eq_append_drop, List.drop_eq_nil_of_le (by omega), List.nil_append]
    at h1
  rw [← h1]
  exact he

theorem startswith_lower_ascii_mtl (c : Char) (rest : List Char)
    (h : StringRef.startswith_lower_ascii (c :: rest) ['.', 'm', 't', 'l'] = true) :
    ∃ b c2 d more, rest = b :: c2 :: d :: more ∧
      c.toLower = '.' ∧ b.toLower = 'm' ∧ c2.toLower = 't' ∧ d.toLower = 'l' := by
  cases rest with
  | nil => simp [StringRef.startswith_lower_ascii] at h
  | cons b rest =>
    cases rest with
    | nil => simp [StringRef.startswith_lower_ascii] at h
    | cons c2 rest =>
      cases rest with
      | nil => simp [StringRef.startswith_lower_ascii] at h
      | cons d more =>
        simp only [StringRef.startswith_lower_ascii, Bool.and_eq_true, beq_iff_eq,
          Bool.and_true] at h
        exact ⟨b, c2, d, more, rfl, h.1, h.2.1, h.2.2.1, h.2.2.2⟩

theorem startswith_lower_ascii_of_window (remaining : List Char)
    (h : (remaining.take 4).map Char.toLower = ['.', 'm', 't', 'l']) :
    StringRef.startswith_lower_ascii remaining ['.', 'm', 't', 'l'] = true := by
  match remaining, h with
  | [], h => simp at h
  | [_], h => simp at h
  | [_, _], h => simp at h
  | [_, _, _], h => simp at h
  | a :: b :: c :: d :: more, h =>
    simp only [List.take, List.map_cons, List.map_nil, List.cons.injEq, and_true] at h
    simp [StringRef.startswith_lower_ascii, h.1, h.2.1, h.2.2.1, h.2.2.2]

/-- The loop of extract_including_ext for the extension ".mtl": when no name with the
extension ends within the characters already passed or within the three after them, the loop
returns the shortest name with the extension, or the empty string at the end of the text when
there is none. -/
theorem extract_including_ext_loop_mtl :
    ∀ (fuel : Nat) (passed remaining text : List Char), text = passed ++ remaining →
      remaining.length + 1 ≤ fuel →
      (∀ k, ends_mtl_name text k → passed.length + 4 ≤ k) →
      ∃ name rest,
        StringRefStream.extract_including_ext_loop ['.', 'm', 't', 'l'] fuel passed
            remaining = .ok (name, { remaining := rest }) ∧
        ((∃ k, ends_mtl_name text k ∧ (∀ j, ends_mtl_name text j → k ≤ j) ∧
            name = text.take k ∧ rest = text.drop k) ∨
          ((∀ k, ¬ ends_mtl_name text k) ∧ name = [] ∧ rest = [])) := by
  intro fuel
  induction fuel with
  | zero => intro passed remaining text _ h; omega
  | succ fuel ih =>
    intro passed remaining text htext hfuel hinv
    cases remaining with
    | nil =>
      refine ⟨[], [], rfl, Or.inr ⟨?_, rfl, rfl⟩⟩
      intro k hk
      have h1 := hinv k hk
      have h2 := hk.1
      rw [htext, List.append_nil] at h2
      omega
    | cons c rest =>
      by_cases hs : StringRef.startswith_lower_ascii (c :: rest) ['.', 'm', 't', 'l'] = true
      · obtain ⟨b, c2, d, more, hrest, hc, hb, hc2, hd⟩ := startswith_lower_ascii_mtl c rest hs
        subst hrest
        have htake : text.take (passed.length + 4) = passed ++ [c, b, c2, d] := by
          rw [htext, List.take_append]
          rfl
        have hdrop : text.drop (passed.length + 4) = more := by
          rw [htext, List.drop_append]
          rfl
        have hlen : text.length = passed.length + 4 + more.length := by
          rw [htext]
          simp only [List.length_append, List.length_cons]
          omega
        have hname : ∃ stem e, text.take (passed.length + 4) = stem ++ e ∧
            e.map Char.toLower = ".mtl".toList :=
          ⟨passed, [c, b, c2, d], htake, by
            simp only [List.map_cons, List.map_nil, hc, hb, hc2, hd]
            rfl⟩
        cases more with
        | nil =>
          refine ⟨passed ++ [c, b, c2, d], [], ?_, Or.inl ⟨passed.length + 4, ?_, hinv, ?_, ?_⟩⟩
          · simp [StringRefStream.extract_including_ext_loop, hs]
          · exact ⟨by omega, hname, Or.inl (by simpa using hlen.symm)⟩
          · exact htake.symm
          · exact hdrop.symm
        | cons f more =>
          have hf : text[passed.length + 4]? = some f := by
            rw [← List.head?_drop, hdrop]
            rfl
          by_cases hend : is_name_end f = true
          · refine ⟨passed ++ [c, b, c2, d], f :: more, ?_,
              Or.inl ⟨passed.length + 4, ?_, hinv, ?_, ?_⟩⟩
            · simp [StringRefStream.extract_including_ext_loop, hs, hend]
            · refine ⟨by omega, hname, Or.inr ⟨f, hf, ?_⟩⟩
              simpa [is_name_end, or_assoc] using hend
            · exact htake.symm
            · exact hdrop.symm
          · have hinv2 : ∀ k, ends_mtl_name text k →
                (passed ++ [c, b, c2, d]).length + 4 ≤ k := by
              intro k hk
              have h1 := hinv k hk
              have hw := ends_mtl_name_window htext hk h1
              simp only [List.length_append, List.length_cons, List.length_nil]
              by_contra hlt
              have hcases : k - 4 - passed.length = 0 ∨ k - 4 - passed.length = 1 ∨
                  k - 4 - passed.length = 2 ∨ k - 4 - passed.length = 3 := by omega
              rcases hcases with h0 | h0 | h0 | h0
              · have hk4 : k = passed.length + 4 := by omega
                obtain ⟨_, _, hfollow⟩ := hk
                rcases hfollow with hfl | ⟨g, hg, hgs⟩
                · have hlen2 := hlen
                  simp only [List.length_cons] at hlen2
                  omega
                · rw [hk4, hf] at hg
                  have hfg : f = g := Option.some.inj hg
                  subst hfg
                  apply hend
                  simpa [is_name_end, or_assoc] using hgs
              · rw [h0] at hw
                simp only [List.drop_succ_cons, List.drop_zero, List.take, List.map_cons,
                  List.cons.injEq] at hw
                rw [hb] at hw
                exact absurd hw.1 (by decide)
              · rw [h0] at hw
                simp only [List.drop_succ_cons, List.drop_zero, List.take, List.map_cons,
                  List.cons.injEq] at hw
                rw [hc2] at hw
                exact absurd hw.1 (by decide)
              · rw [h0] at hw
                simp only [List.drop_succ_cons, List.drop_zero, List.take, List.map_cons,
                  List.cons.injEq] at hw
                rw [hd] at hw
                exact absurd hw.1 (by decide)
            obtain ⟨name, rest2, hrun, hres⟩ :=
              ih (passed ++ [c, b, c2, d]) (f :: more) text
                (by rw [htext]; simp) (by simp only [List.length_cons] at hfuel ⊢; omega) hinv2
            refine ⟨name, rest2, ?_, hres⟩
            simp only [StringRefStream.extract_including_ext_loop, hs, if_true]
            simpa [hend] using hrun
      · have hinv2 : ∀ k, ends_mtl_name text k → (passed ++ [c]).length + 4 ≤ k := by
          intro k hk
          have h1 := hinv k hk
          have hw := ends_mtl_name_window htext hk h1
          simp only [List.length_append, List.length_cons, List.length_nil]
          by_contra hlt
          have h0 : k - 4 - passed.length = 0 := by omega
          rw [h0, List.drop_zero] at hw
          exact hs (startswith_lower_ascii_of_window _ hw)
        obtain ⟨name, rest2, hrun, hres⟩ :=
          ih (passed ++ [c]) rest text (by rw [htext]; simp)
            (by simp only [List.length_cons] at hfuel; omega) hinv2
        refine ⟨name, rest2, ?_, hres⟩
        simp only [StringRefStream.extract_including_ext_loop, hs]
        exact hrun

theorem ends_mtl_name_length {text : List Char} {k : Nat} (hk : ends_mtl_name text k) :
    4 ≤ k := by
  obtain ⟨hle, ⟨stem, e, htake, he⟩, _⟩ := hk
  have helen : e.length = 4 := by
    have := congrArg List.length he
    simpa using this
  have hlen : (text.take k).length = k := by
    rw [List.length_take]
    omega
  have := congrArg List.length htake
  rw [hlen, List.length_append, helen] at this
  omega

/-- C17: for every stream and the extension ".mtl", extract_including_ext returns (within a
budget above the number of remaining characters) the shortest beginning of the remaining text
that ends with the extension, compared with ASCII capitals lowered, and is followed by the end
of the text or by a space, tab, carriage return or newline, and leaves the cursor right after
it; when there is no such beginning it returns the empty string and leaves the cursor at the
end of the text. -/
theorem extract_including_ext_returns_shortest_name (s : StringRefStream) (extra : Nat) :
    ∃ name rest,
      s.extract_including_ext (s.remaining.length + 1 + extra) ".mtl".toList =
        .ok (name, { remaining := rest }) ∧
      ((∃ k, ends_mtl_name s.remaining k ∧ (∀ j, ends_mtl_name s.remaining j → k ≤ j) ∧
          name = s.remaining.take k ∧ rest = s.remaining.drop k) ∨
        ((∀ k, ¬ ends_mtl_name s.remaining k) ∧ name = [] ∧ rest = [])) := by
  have h := extract_including_ext_loop_mtl (s.remaining.length + 1 + extra) [] s.remaining
    s.remaining rfl (by omega) (fun k hk => by
      have := ends_mtl_name_length hk
      simpa using this)
  exact h

/-! ## parse_file_names -/

/-- A larger budget does not change what the loop of extract_including_ext returns. -/
theorem extract_including_ext_loop_fuel (ext : StringRef) (hext : ext ≠ []) :
    ∀ (fuel1 fuel2 : Nat) (passed remaining : List Char),
      remaining.length + 1 ≤ fuel1 → remaining.length + 1 ≤ fuel2 →
      StringRefStream.extract_including_ext_loop ext fuel1 passed remaining =
        StringRefStream.extract_including_ext_loop ext fuel2 passed remaining := by
  have hpos : 0 < ext.length := List.length_pos.mpr hext
  intro fuel1
  induction fuel1 with
  | zero => intro fuel2 passed remaining h; omega
  | succ fuel1 ih =>
    intro fuel2 passed remaining h1 h2
    cases fuel2 with
    | zero => omega
    | succ fuel2 =>
      cases remaining with
      | nil => rfl
      | cons c rest =>
        by_cases hs : StringRef.startswith_lower_ascii (c :: rest) ext = true
        · have hlen := startswith_lower_ascii_length _ _ hs
          have hdrop : ((c :: rest).drop ext.length).length =
              (c :: rest).length - ext.length := List.length_drop _ _
          cases hrem : (c :: rest).drop ext.length with
          | nil => simp only [StringRefStream.extract_including_ext_loop, hs, if_true, hrem]
          | cons d more =>
            rw [hrem] at hdrop
            by_cases hd : is_name_end d = true
            · simp only [StringRefStream.extract_including_ext_loop, hs, if_true, hrem, hd]
            · simp only [StringRefStream.extract_including_ext_loop, hs, if_true, hrem, hd]
              exact ih fuel2 _ _ (by omega) (by omega)
        · simp only [StringRefStream.extract_including_ext_loop, hs]
          simp only [List.length_cons] at h1 h2
          exact ih fuel2 _ _ (by omega) (by omega)

/-- Whenever the loop of extract_including_ext returns, the cursor has not moved back, and it
has moved forward when there were characters left. -/
theorem extract_including_ext_loop_progress (ext : StringRef) (hext : ext ≠ []) :
    ∀ (fuel : Nat) (passed remaining name rest : List Char),
      StringRefStream.extract_including_ext_loop ext fuel passed remaining =
        .ok (name, { remaining := rest }) →
      rest.length ≤ remaining.length ∧ (remaining ≠ [] → rest.length < remaining.length) := by
  have hpos : 0 < ext.length := List.length_pos.mpr hext
  intro fuel
  induction fuel with
  | zero =>
    intro passed remaining name rest h
    simp [StringRefStream.extract_including_ext_loop] at h
  | succ fuel ih =>
    intro passed remaining name rest h
    cases remaining with
    | nil =>
      simp only [StringRefStream.extract_including_ext_loop, Except.ok.injEq, Prod.mk.injEq,
        StringRefStream.mk.injEq] at h
      rw [← h.2]
      exact ⟨Nat.le_refl _, fun hne => absurd rfl hne⟩
    | cons c more =>
      by_cases hs : StringRef.startswith_lower_ascii (c :: more) ext = true
      · have hlen := startswith_lower_ascii_length _ _ hs
        have hdrop : ((c :: more).drop ext.length).length =
            (c :: more).length - ext.length := List.length_drop _ _
        cases hrem : (c :: more).drop ext.length with
        | nil =>
          simp only [StringRefStream.extract_including_ext_loop, hs, if_true, hrem,
            Except.ok.injEq, Prod.mk.injEq, StringRefStream.mk.injEq] at h
          rw [← h.2]
          simp
        | cons d tail =>
          rw [hrem] at hdrop
          by_cases hd : is_name_end d = true
          · simp only [StringRefStream.extract_including_ext_loop, hs, if_true, hrem, hd,
              Except.ok.injEq, Prod.mk.injEq, StringRefStream.mk.injEq] at h
            rw [← h.2]
            exact ⟨by omega, fun _ => by omega⟩
          · simp only [StringRefStream.extract_including_ext_loop, hs, if_true, hrem, hd] at h
            have := (ih _ _ name rest h).1
            exact ⟨by omega, fun _ => by omega⟩
      · simp only [StringRefStream.extract_including_ext_loop, hs] at h
        have := (ih _ _ name rest h).1
        simp only [List.length_cons]
        exact ⟨by omega, fun _ => by omega⟩

/-- What extract_quoted_string does on a stream that starts with the quote. -/
theorem extract_quoted_string_spec (more : List Char) :
    ∃ name after,
      more = name ++ after ∧ double_quote ∉ name ∧
      ((after = [] ∧
          StringRefStream.extract_quoted_string { remaining := double_quote :: more }
            double_quote = .ok (name, { remaining := [] })) ∨
        (∃ rest, after = double_quote :: rest ∧
          StringRefStream.extract_quoted_string { remaining := double_quote :: more }
            double_quote = .ok (name, { remaining := rest }))) := by
  have happ := advance_while_append (fun d => d != double_quote) more
  have hpassed := advance_while_passed (fun d => d != double_quote) more
  have hstop := advance_while_stops (fun d => d != double_quote) more
  refine ⟨(advance_while (fun d => d != double_quote) more).1,
    (advance_while (fun d => d != double_quote) more).2, happ.symm, ?_, ?_⟩
  · intro hmem
    have := hpassed _ hmem
    simp at this
  · cases hrem : (advance_while (fun d => d != double_quote) more).2 with
    | nil =>
      refine Or.inl ⟨rfl, ?_⟩
      simp [StringRefStream.extract_quoted_string, StringRefStream.peek_next,
        StringRefStream.has_remaining_chars, StringRefStream.extract_until, BLI_assert, bind,
        Except.bind, pure, Except.pure, hrem]
    | cons d rest =>
      have hd : d = double_quote := by simpa using hstop d rest hrem
      subst hd
      refine Or.inr ⟨rest, rfl, ?_⟩
      simp [StringRefStream.extract_quoted_string, StringRefStream.peek_next,
        StringRefStream.has_remaining_chars, StringRefStream.extract_until, BLI_assert, bind,
        Except.bind, pure, Except.pure, hrem]

theorem startswith_lower_ascii_iff :
    ∀ (text ext : StringRef), StringRef.startswith_lower_ascii text ext = true ↔
      ext.length ≤ text.length ∧ (text.take ext.length).map Char.toLower = ext := by
  intro text
  induction text with
  | nil =>
    intro ext
    cases ext <;> simp [StringRef.startswith_lower_ascii]
  | cons c rest ih =>
    intro ext
    cases ext with
    | nil => simp [StringRef.startswith_lower_ascii]
    | cons d other =>
      simp only [StringRef.startswith_lower_ascii, Bool.and_eq_true, beq_iff_eq, ih other,
        List.length_cons, List.take_succ_cons, List.map_cons, List.cons.injEq]
      constructor
      · rintro ⟨h1, h2, h3⟩
        exact ⟨by omega, h1, h3⟩
      · rintro ⟨h1, h2, h3⟩
        exact ⟨h2, by omega, h3⟩

/-- The characters that a name with the extension ends with, seen from the remaining text. -/
theorem ends_ext_name_window {ext text passed remaining : List Char} {k : Nat}
    (htext : text = passed ++ remaining) (hk : ends_ext_name ext text k)
    (hp : passed.length + ext.length ≤ k) :
    ((remaining.drop (k - ext.length - passed.length)).take ext.length).map Char.toLower =
      ext := by
  obtain ⟨hle, ⟨stem, e, htake, he⟩, _⟩ := hk
  have helen : e.length = ext.length := by
    have := congrArg List.length he
    simpa using this
  have hlen : (text.take k).length = k := by
    rw [List.length_take]
    omega
  have hstem : stem.length = k - ext.length := by
    have := congrArg List.length htake
    rw [hlen, List.length_append, helen] at this
    omega
  have h1 : e = (text.take k).drop (k - ext.length) := by
    rw [htake, List.drop_left' hstem]
  rw [List.drop_take, show k - (k - ext.length) = ext.length by omega, htext,
    List.drop_append_eq_append_drop, List.drop_eq_nil_of_le (by omega), List.nil_append]
    at h1
  rw [← h1]
  exact he

theorem ends_ext_name_length {ext text : List Char} {k : Nat}
    (hk : ends_ext_name ext text k) : ext.length ≤ k := by
  obtain ⟨hle, ⟨stem, e, htake, he⟩, _⟩ := hk
  have helen : e.length = ext.length := by
    have := congrArg List.length he
    simpa using this
  have hlen : (text.take k).length = k := by
    rw [List.length_take]
    omega
  have := congrArg List.length htake
  rw [hlen, List.length_append, helen] at this
  omega

/-- When the first character of the extension does not occur again in it, two occurrences of
the extension do not overlap. -/
theorem ext_occurrences_apart (ext remaining : List Char) (j : Nat)
    (hu : first_char_unique ext = true) (h0 : 0 < j) (hj : j < ext.length)
    (h1 : (remaining.take ext.length).map Char.toLower = ext)
    (h2 : ((remaining.drop j).take ext.length).map Char.toLower = ext) : False := by
  cases ext with
  | nil => simp at hj
  | cons a tail =>
    obtain ⟨i, rfl⟩ : ∃ i, j = i + 1 := ⟨j - 1, by omega⟩
    simp only [List.length_cons] at hj h1 h2
    have ha : a ∉ tail := by simpa [first_char_unique] using hu
    have h3 := congrArg (fun l => l[0]?) h2
    have h4 := congrArg (fun l => l[i + 1]?) h1
    simp only [List.getElem?_map, List.getElem?_take, List.getElem?_drop,
      List.getElem?_cons_zero, List.getElem?_cons_succ] at h3 h4
    simp only [show i + 1 < tail.length + 1 by omega, show 0 < tail.length + 1 by omega,
      if_true, Nat.add_zero] at h3 h4
    rw [h3] at h4
    exact ha (List.getElem?_mem h4.symm)

/-- The loop of extract_including_ext for a non-empty extension: it returns a beginning of the
text that is a name with the extension, or the empty name at the end of the text. When the
first character of the extension does not occur again in it and no name with the extension
ends within the characters already passed or within the first characters after them, the
beginning is the shortest one, and the empty name is returned only when there is none. -/
theorem extract_including_ext_loop_spec (ext : StringRef) (hext : ext ≠ []) :
    ∀ (fuel : Nat) (passed remaining text : List Char), text = passed ++ remaining →
      remaining.length + 1 ≤ fuel →
      ∃ name rest,
        StringRefStream.extract_including_ext_loop ext fuel passed remaining =
          .ok (name, { remaining := rest }) ∧
        ((∃ k, ends_ext_name ext text k ∧ name = text.take k ∧ rest = text.drop k ∧
            (first_char_unique ext = true →
              (∀ j, ends_ext_name ext text j → passed.length + ext.length ≤ j) →
              ∀ j, ends_ext_name ext text j → k ≤ j)) ∨
          (name = [] ∧ rest = [] ∧
            (first_char_unique ext = true →
              (∀ j, ends_ext_name ext text j → passed.length + ext.length ≤ j) →
              ∀ j, ¬ ends_ext_name ext text j))) := by
  have hpos : 0 < ext.length := List.length_pos.mpr hext
  intro fuel
  induction fuel with
  | zero => intro passed remaining text _ h; omega
  | succ fuel ih =>
    intro passed remaining text htext hfuel
    cases remaining with
    | nil =>
      refine ⟨[], [], rfl, Or.inr ⟨rfl, rfl, ?_⟩⟩
      intro _ hinv k hk
      have h1 := hinv k hk
      have h2 := hk.1
      rw [htext, List.append_nil] at h2
      omega
    | cons c rest =>
      by_cases hs : StringRef.startswith_lower_ascii (c :: rest) ext = true
      · obtain ⟨hn, hwin⟩ := (startswith_lower_ascii_iff _ _).mp hs
        have htakelen : ((c :: rest).take ext.length).length = ext.length := by
          rw [List.length_take]
          omega
        have hdroplen : ((c :: rest).drop ext.length).length =
            (c :: rest).length - ext.length := List.length_drop _ _
        have htake : text.take (passed.length + ext.length) =
            passed ++ (c :: rest).take ext.length := by
          rw [htext, List.take_append]
        have hdrop : text.drop (passed.length + ext.length) = (c :: rest).drop ext.length := by
          rw [htext, List.drop_append]
        have hlen : text.length = passed.length + (rest.length + 1) := by
          rw [htext, List.length_append, List.length_cons]
        simp only [List.length_cons] at hn hdroplen hfuel
        have hname : ∃ stem e, text.take (passed.length + ext.length) = stem ++ e ∧
            e.map Char.toLower = ext := ⟨passed, (c :: rest).take ext.length, htake, hwin⟩
        cases hrem : (c :: rest).drop ext.length with
        | nil =>
          rw [hrem] at hdroplen hdrop
          simp only [List.length_nil] at hdroplen
          refine ⟨passed ++ (c :: rest).take ext.length, [], ?_,
            Or.inl ⟨passed.length + ext.length, ?_, htake.symm, hdrop.symm,
              fun _ hinv => hinv⟩⟩
          · simp only [StringRefStream.extract_including_ext_loop, hs, if_true, hrem]
          · exact ⟨by omega, hname, Or.inl (by omega)⟩
        | cons f more =>
          rw [hrem] at hdroplen hdrop
          simp only [List.length_cons] at hdroplen
          have hf : text[passed.length + ext.length]? = some f := by
            rw [← List.head?_drop, hdrop]
            rfl
          by_cases hend : is_name_end f = true
          · refine ⟨passed ++ (c :: rest).take ext.length, f :: more, ?_,
              Or.inl ⟨passed.length + ext.length, ?_, htake.symm, hdrop.symm,
                fun _ hinv => hinv⟩⟩
            · simp only [StringRefStream.extract_including_ext_loop, hs, if_true, hrem, hend]
            · refine ⟨by omega, hname, Or.inr ⟨f, hf, ?_⟩⟩
              simpa [is_name_end, or_assoc] using hend
          · have hinv2 : first_char_unique ext = true →
                (∀ j, ends_ext_name ext text j → passed.length + ext.length ≤ j) →
                ∀ j, ends_ext_name ext text j →
                  (passed ++ (c :: rest).take ext.length).length + ext.length ≤ j := by
              intro hu hinv j hj
              have h1 := hinv j hj
              have hw := ends_ext_name_window htext hj h1
              rw [List.length_append, htakelen]
              by_contra hlt
              by_cases h0 : j - ext.length - passed.length = 0
              · have hj4 : j = passed.length + ext.length := by omega
                obtain ⟨_, _, hfollow⟩ := hj
                rcases hfollow with hfl | ⟨g, hg, hgs⟩
                · omega
                · rw [hj4, hf] at hg
                  have hfg : f = g := Option.some.inj hg
                  subst hfg
                  apply hend
                  simpa [is_name_end, or_assoc] using hgs
              · exact ext_occurrences_apart ext (c :: rest) _ hu (by omega) (by omega)
                  hwin hw
            obtain ⟨name, rest2, hrun, hres⟩ :=
              ih (passed ++ (c :: rest).take ext.length) (f :: more) text
                (by rw [htext, List.append_assoc, ← hrem, List.take_append_drop])
                (by simp only [List.length_cons]; omega)
            refine ⟨name, rest2, ?_, ?_⟩
            · simp only [StringRefStream.extract_including_ext_loop, hs, if_true, hrem, hend]
              exact hrun
            · rcases hres with ⟨k, hk, hn1, hr1, hmin⟩ | ⟨hn1, hr1, hnone⟩
              · exact Or.inl ⟨k, hk, hn1, hr1, fun hu hinv => hmin hu (hinv2 hu hinv)⟩
              · exact Or.inr ⟨hn1, hr1, fun hu hinv => hnone hu (hinv2 hu hinv)⟩
      · have hinv2 : (∀ j, ends_ext_name ext text j → passed.length + ext.length ≤ j) →
            ∀ j, ends_ext_name ext text j → (passed ++ [c]).length + ext.length ≤ j := by
          intro hinv j hj
          have h1 := hinv j hj
          have hw := ends_ext_name_window htext hj h1
          simp only [List.length_append, List.length_cons, List.length_nil]
          by_contra hlt
          have h0 : j - ext.length - passed.length = 0 := by omega
          rw [h0, List.drop_zero] at hw
          have hjle := hj.1
          rw [htext, List.length_append] at hjle
          exact hs ((startswith_lower_ascii_iff _ _).mpr ⟨by omega, hw⟩)
        obtain ⟨name, rest2, hrun, hres⟩ :=
          ih (passed ++ [c]) rest text (by rw [htext]; simp)
            (by simp only [List.length_cons] at hfuel; omega)
        refine ⟨name, rest2, ?_, ?_⟩
        · simp only [StringRefStream.extract_including_ext_loop, hs]
          exact hrun
        · rcases hres with ⟨k, hk, hn1, hr1, hmin⟩ | ⟨hn1, hr1, hnone⟩
          · exact Or.inl ⟨k, hk, hn1, hr1, fun hu hinv => hmin hu (hinv2 hinv)⟩
          · exact Or.inr ⟨hn1, hr1, fun hu hinv => hnone hu (hinv2 hinv)⟩

/-- The loop of parse_file_names, with budgets above the number of remaining characters,
returns the list it was given followed by the names that TokenNames describes for the
remaining text. -/
theorem parse_file_names_loop_spec (ext : StringRef) (hext : ext ≠ []) :
    ∀ (n : Nat) (stream : StringRefStream), stream.remaining.length ≤ n →
      ∃ names, TokenNames ext stream.remaining names ∧
        ∀ (fuel inner : Nat) (r_names : List StringRef), n + 1 ≤ fuel →
          stream.remaining.length + 1 ≤ inner →
          parse_file_names_loop ext inner fuel stream r_names = .ok (r_names ++ names) := by
  intro n
  induction n using Nat.strong_induction_on with
  | _ n ih =>
    intro stream hlen
    have happ := advance_while_append is_whitespace stream.remaining
    have hblank := advance_while_passed is_whitespace stream.remaining
    have hstop := advance_while_stops is_whitespace stream.remaining
    cases hrest : (advance_while is_whitespace stream.remaining).2 with
    | nil =>
      refine ⟨[], TokenNames.done _ ?_, ?_⟩
      · intro c hc
        rw [hrest, List.append_nil] at happ
        rw [← happ] at hc
        exact hblank c hc
      · intro fuel inner r_names hfuel _
        obtain ⟨f, rfl⟩ : ∃ f, fuel = f + 1 := ⟨fuel - 1, by omega⟩
        simp [parse_file_names_loop, StringRefStream.forward_over_whitespace, hrest,
          StringRefStream.has_remaining_chars, pure, Except.pure, bind, Except.bind]
    | cons c more =>
      have hc : is_whitespace c = false := hstop c more hrest
      rw [hrest] at happ
      have hlen2 : stream.remaining.length =
          (advance_while is_whitespace stream.remaining).1.length + (more.length + 1) := by
        have := congrArg List.length happ
        rw [List.length_append, List.length_cons] at this
        exact this.symm
      by_cases hq : c = double_quote
      · subst hq
        obtain ⟨name, after, hmore, hnq, hcase⟩ := extract_quoted_string_spec more
        rcases hcase with ⟨hafter, hrun⟩ | ⟨rest, hafter, hrun⟩
        · refine ⟨[name], ?_, ?_⟩
          · rw [← happ, hmore, hafter, List.append_nil]
            exact TokenNames.unclosed _ name hblank hnq
          · intro fuel inner r_names hfuel _
            obtain ⟨f, rfl⟩ : ∃ f, fuel = f + 2 := ⟨fuel - 2, by omega⟩
            simp [parse_file_names_loop, StringRefStream.forward_over_whitespace, hrest,
              StringRefStream.has_remaining_chars, StringRefStream.peek_next, BLI_assert,
              pure, Except.pure, bind, Except.bind, hrun, advance_while]
        · have hrestlen : rest.length < stream.remaining.length := by
            have := congrArg List.length hmore
            rw [List.length_append, hafter, List.length_cons] at this
            omega
          obtain ⟨names, htok, hloop⟩ := ih (n - 1) (by omega) { remaining := rest }
            (by simp only []; omega)
          refine ⟨name :: names, ?_, ?_⟩
          · rw [← happ, hmore, hafter]
            exact TokenNames.quoted _ name rest names hblank hnq htok
          · intro fuel inner r_names hfuel hinner
            obtain ⟨f, rfl⟩ : ∃ f, fuel = f + 1 := ⟨fuel - 1, by omega⟩
            have hrec := hloop f inner (r_names ++ [name]) (by omega)
              (by simp only []; omega)
            simp [parse_file_names_loop, StringRefStream.forward_over_whitespace, hrest,
              StringRefStream.has_remaining_chars, StringRefStream.peek_next, BLI_assert,
              pure, Except.pure, bind, Except.bind, hrun, hrec]
      · obtain ⟨name, rest, hrun0, _, hlt⟩ :=
          extract_including_ext_loop_ok ext hext ((c :: more).length + 1) [] (c :: more)
            (Nat.le_refl _)
        obtain ⟨name1, rest1, hrun1, hres⟩ :=
          extract_including_ext_loop_spec ext hext ((c :: more).length + 1) [] (c :: more)
            (c :: more) rfl (Nat.le_refl _)
        have hsame := hrun0.symm.trans hrun1
        simp only [Except.ok.injEq, Prod.mk.injEq, StringRefStream.mk.injEq] at hsame
        obtain ⟨hname1, hrest1⟩ := hsame
        subst hname1 hrest1
        have hstart : ∀ j, ends_ext_name ext (c :: more) j →
            ([] : List Char).length + ext.length ≤ j := by
          intro j hj
          have := ends_ext_name_length hj
          simpa using this
        have hrestlen : rest.length < stream.remaining.length := by
          have := hlt (List.cons_ne_nil _ _)
          simp only [List.length_cons] at this
          omega
        have hrun : ∀ inner, stream.remaining.length + 1 ≤ inner →
            StringRefStream.extract_including_ext inner { remaining := c :: more } ext =
              .ok (name, { remaining := rest }) := by
          intro inner hinner
          unfold StringRefStream.extract_including_ext
          rw [extract_including_ext_loop_fuel ext hext inner ((c :: more).length + 1) []
            (c :: more) (by simp only [List.length_cons]; omega) (Nat.le_refl _)]
          exact hrun0
        rcases hres with ⟨k, hk, hnk, hrk, hmin⟩ | ⟨hn0, hr0, hnone⟩
        · obtain ⟨names, htok, hloop⟩ := ih (n - 1) (by omega) { remaining := rest }
            (by simp only []; omega)
          refine ⟨name :: names, ?_, ?_⟩
          · rw [← happ, hnk]
            rw [hrk] at htok
            exact TokenNames.unquoted _ c more k names hblank hc hq hk
              (fun hu => hmin hu hstart) htok
          · intro fuel inner r_names hfuel hinner
            obtain ⟨f, rfl⟩ : ∃ f, fuel = f + 1 := ⟨fuel - 1, by omega⟩
            have hrec := hloop f inner (r_names ++ [name]) (by omega)
              (by simp only []; omega)
            simp [parse_file_names_loop, StringRefStream.forward_over_whitespace, hrest,
              StringRefStream.has_remaining_chars, StringRefStream.peek_next, BLI_assert,
              pure, Except.pure, bind, Except.bind, hrun inner hinner, hrec, hq]
        · subst hn0 hr0
          refine ⟨[[]], ?_, ?_⟩
          · rw [← happ]
            exact TokenNames.unnamed _ c more hblank hc hq (fun hu => hnone hu hstart)
          · intro fuel inner r_names hfuel hinner
            obtain ⟨f, rfl⟩ : ∃ f, fuel = f + 2 := ⟨fuel - 2, by omega⟩
            simp [parse_file_names_loop, StringRefStream.forward_over_whitespace, hrest,
              StringRefStream.has_remaining_chars, StringRefStream.peek_next, BLI_assert,
              pure, Except.pure, bind, Except.bind, hrun inner hinner, hq, advance_while]

theorem forward_over_whitespace_length (s : StringRefStream) :
    s.forward_over_whitespace.remaining.length ≤ s.remaining.length := by
  have := congrArg List.length (advance_while_append is_whitespace s.remaining)
  rw [List.length_append] at this
  simp only [StringRefStream.forward_over_whitespace]
  omega

theorem extract_quoted_string_progress (s : StringRefStream) (name : StringRef)
    (s2 : StringRefStream)
    (h : s.extract_quoted_string double_quote = .ok (name, s2)) :
    s2.remaining.length < s.remaining.length := by
  obtain ⟨remaining⟩ := s
  cases remaining with
  | nil =>
    simp [StringRefStream.extract_quoted_string, StringRefStream.peek_next,
      StringRefStream.has_remaining_chars, BLI_assert, bind, Except.bind] at h
  | cons c more =>
    by_cases hc : c = double_quote
    · subst hc
      obtain ⟨name2, after, hmore, _, hcase⟩ := extract_quoted_string_spec more
      have hlen := congrArg List.length hmore
      rw [List.length_append] at hlen
      rcases hcase with ⟨_, hrun⟩ | ⟨rest, hafter, hrun⟩
      · rw [hrun] at h
        simp only [Except.ok.injEq, Prod.mk.injEq] at h
        rw [← h.2]
        simp
      · rw [hrun] at h
        simp only [Except.ok.injEq, Prod.mk.injEq] at h
        rw [← h.2]
        have hafterlen := congrArg List.length hafter
        simp only [List.length_cons] at hafterlen ⊢
        omega
    · have hne : (c == double_quote) = false := by simpa using hc
      simp [StringRefStream.extract_quoted_string, StringRefStream.peek_next,
        StringRefStream.has_remaining_chars, BLI_assert, bind, Except.bind, pure,
        Except.pure, hne] at h

/-- With a non-empty extension and a budget above the length of the input, parse_file_names
returns the list it was given followed by the names that TokenNames describes for the
input. -/
theorem parse_file_names_spec (text e : StringRef) (he : e ≠ []) :
    ∃ names,
      TokenNames e
        (if StringRef.endswith text '\n' then StringRef.drop_suffix text ['\n'] else text)
        names ∧
      ∀ (extra : Nat) (r_names : List StringRef),
        parse_file_names (text.length + 1 + extra) text e r_names =
          .ok (r_names ++ names) := by
  have hshort : (if StringRef.endswith text '\n' then StringRef.drop_suffix text ['\n']
      else text).length ≤ text.length := by
    split
    · simp [StringRef.drop_suffix]
    · exact Nat.le_refl _
  obtain ⟨names, htok, hloop⟩ := parse_file_names_loop_spec e he text.length
    { remaining := if StringRef.endswith text '\n' then StringRef.drop_suffix text ['\n']
        else text } hshort
  refine ⟨names, htok, ?_⟩
  intro extra r_names
  exact hloop (text.length + 1 + extra) (text.length + 1 + extra) r_names (by omega)
    (by simp only []; omega)

/-- C16, as the code has it: for every input string, every non-empty extension and every
initial name list, parse_file_names terminates within a budget above the length of the input:
each loop iteration either returns or moves the cursor forward by at least one character; it
only appends to the name list (existing entries keep their position), appending one name per
loop iteration. For text that starts with a double quote the name is the text after it up to
the next double quote, or up to the end of the input when the quote is not closed. For other
text it is a beginning of the remaining text that ends with the extension, compared with ASCII
capitals lowered, and is followed by a space, a tab, a carriage return, a newline or the end
of the input (the shortest such beginning when the first character of the extension does not
occur again in it, as in ".mtl"), or it is the empty name and the rest of the input is used up
(with such an extension: when there is no such beginning). The input ` "a b.mtl" c.mtl`
followed by a newline, with extension ".mtl", appends "a b.mtl" and then "c.mtl". -/
theorem parse_file_names_terminates_and_appends (str ext : StringRef) (hext : ext ≠ []) :
    (∃ names,
      TokenNames ext
        (if StringRef.endswith str '\n' then StringRef.drop_suffix str ['\n'] else str)
        names ∧
      ∀ (extra : Nat) (r_names : List StringRef),
        parse_file_names (str.length + 1 + extra) str ext r_names =
          .ok (r_names ++ names)) ∧
    (∀ s : StringRefStream,
      s.forward_over_whitespace.remaining.length ≤ s.remaining.length) ∧
    (∀ (s : StringRefStream) (name : StringRef) (s2 : StringRefStream),
      s.extract_quoted_string double_quote = .ok (name, s2) →
      s2.remaining.length < s.remaining.length) ∧
    (∀ (fuel : Nat) (s : StringRefStream) (name : StringRef) (s2 : StringRefStream),
      s.has_remaining_chars = true → s.extract_including_ext fuel ext = .ok (name, s2) →
      s2.remaining.length < s.remaining.length) ∧
    (∀ (extra : Nat) (r_names : List StringRef),
      parse_file_names (example_file_names.length + 1 + extra) example_file_names
        ".mtl".toList r_names = .ok (r_names ++ ["a b.mtl".toList, "c.mtl".toList])) := by
  refine ⟨parse_file_names_spec str ext hext, forward_over_whitespace_length,
    extract_quoted_string_progress, ?_, ?_⟩
  · intro fuel s name s2 hrem hrun
    obtain ⟨rest⟩ := s2
    exact (extract_including_ext_loop_progress ext hext fuel [] s.remaining name rest hrun).2
      ((has_remaining_chars_iff s).mp hrem)
  · obtain ⟨names, _, hrun⟩ := parse_file_names_spec example_file_names ".mtl".toList
      (by decide)
    have h0 := hrun 0 []
    have hval : parse_file_names (example_file_names.length + 1 + 0) example_file_names
        ".mtl".toList [] = .ok ["a b.mtl".toList, "c.mtl".toList] := by decide
    rw [hval] at h0
    simp only [List.nil_append, Except.ok.injEq] at h0
    intro extra r_names
    rw [hrun extra r_names, ← h0]

/-- C16 (as the code has it) at the extension ".mtl" and the input ` "a b.mtl" c.mtl`
followed by a newline. -/
theorem parse_file_names_terminates_and_appends_witness :
    ".mtl".toList ≠ [] ∧ first_char_unique ".mtl".toList = true ∧
    ∀ (extra : Nat) (r_names : List StringRef),
      parse_file_names (example_file_names.length + 1 + extra) example_file_names
        ".mtl".toList r_names = .ok (r_names ++ ["a b.mtl".toList, "c.mtl".toList]) :=
  ⟨by decide, by decide,
    (parse_file_names_terminates_and_appends example_file_names ".mtl".toList
      (by decide)).2.2.2.2⟩

/-- C16 fails as stated, the appended names being neither the text between a pair of double
quotes nor the unquoted tokens of the input. On the input `"abc`, whose single double quote
is never closed, parse_file_names appends "abc". On the input `abc`, which has no double
quote and one token, it appends the empty name. On the input `a.mtlx b.mtl c`, which has
three tokens, it appends two names: "a.mtlx b.mtl", which holds a blank, and the empty
name. -/
theorem parse_file_names_names_are_not_tokens :
    parse_file_names 5 example_unclosed_quote ".mtl".toList [] = .ok ["abc".toList] ∧
    example_unclosed_quote.count double_quote = 1 ∧
    example_unclosed_quote.head? = some double_quote ∧
    parse_file_names 4 "abc".toList ".mtl".toList [] = .ok [[]] ∧
    parse_file_names 15 "a.mtlx b.mtl c".toList ".mtl".toList [] =
      .ok ["a.mtlx b.mtl".toList, []] := by
  decide

/-! ## parse_obj_lines -/

/-- The body of the line loop never changes the segment collection. -/
theorem parse_obj_line_unchanged (fuel : Nat) (line : StringRef) (segments result :
    ObjFileSegments) (h : parse_obj_line fuel line segments = .ok result) :
    result = segments := by
  unfold parse_obj_line at h
  cases line with
  | nil =>
    simp only [pure, Except.pure, Except.ok.injEq] at h
    exact h.symm
  | cons c rest =>
    simp only [pure, Except.pure, bind, Except.bind] at h
    split at h
    · exact (Except.ok.inj h).symm
    · split at h
      · exact (Except.ok.inj h).symm
      · split at h
        · split at h
          · split at h
            · cases h
            · exact (Except.ok.inj h).symm
          · exact (Except.ok.inj h).symm
        · split at h
          · exact (Except.ok.inj h).symm
          · split at h
            · exact (Except.ok.inj h).symm
            · exact (Except.ok.inj h).symm

/-- With a budget above the length of the line, the body of the line loop returns. -/
theorem parse_obj_line_ok (fuel : Nat) (line : StringRef) (segments : ObjFileSegments)
    (hfuel : line.length + 1 ≤ fuel) :
    parse_obj_line fuel line segments = .ok segments := by
  have hnames : ∃ names,
      parse_file_names fuel ( StringRef.drop_prefix line "mtllib".toList) ".mtl".toList [] =
        .ok names := by
    obtain ⟨names, _, hrun⟩ :=
      parse_file_names_spec ( StringRef.drop_prefix line "mtllib".toList) ".mtl".toList
        (by decide)
    have hlen : ( StringRef.drop_prefix line "mtllib".toList).length ≤ line.length := by
      simp [StringRef.drop_prefix]
    have h := hrun (fuel - (( StringRef.drop_prefix line "mtllib".toList).length + 1)) []
    rw [show ( StringRef.drop_prefix line "mtllib".toList).length + 1 +
        (fuel - (( StringRef.drop_prefix line "mtllib".toList).length + 1)) = fuel by omega]
      at h
    exact ⟨_, h⟩
  obtain ⟨names, hnames⟩ := hnames
  unfold parse_obj_line
  cases line with
  | nil => rfl
  | cons c rest =>
    simp only [pure, Except.pure, bind, Except.bind, hnames]
    repeat' split
    all_goals rfl

/-- The line loop of parse_obj_lines returns the collection it was given. -/
theorem parse_obj_lines_loop (limit : Nat) :
    ∀ (fuel : Nat) (stream : StringRefStream) (segments : ObjFileSegments),
      fuel ≤ limit → stream.remaining.length + 1 ≤ fuel →
      for_each_line (parse_obj_line limit) fuel stream segments = .ok segments := by
  intro fuel
  induction fuel with
  | zero => intro stream segments _ h; omega
  | succ fuel ih =>
    intro stream segments hlimit hfuel
    by_cases hrem : stream.remaining = []
    · have hno : stream.has_remaining_chars = false := by
        simp [StringRefStream.has_remaining_chars, hrem]
      simp [for_each_line, hno, pure, Except.pure]
    · have hyes : stream.has_remaining_chars = true := (has_remaining_chars_iff stream).mpr hrem
      obtain ⟨_, h2, _, _⟩ := extract_line_spec stream hrem
      have hshort := extract_line_shortens stream hrem
      have hline : stream.extract_line.1.length ≤ stream.remaining.length := by
        have := congrArg List.length h2
        rw [List.length_append] at this
        omega
      simp only [for_each_line, hyes, if_true, bind, Except.bind]
      rw [parse_obj_line_ok limit stream.extract_line.1 segments (by omega)]
      exact ih stream.extract_line.2 segments (by omega) (by omega)

/-- C13: for every input text, parse_obj_lines terminates (within a budget above the length
of the text) and returns a segment collection whose segments list is empty; no line, a line
starting with "mtllib" included, adds a segment: the body of the line loop hands back the
collection it was given. -/
theorem parse_obj_lines_returns_no_segment (orig_str : StringRef) (extra : Nat) :
    parse_obj_lines (orig_str.length + 1 + extra) orig_str = .ok { segments := [] } ∧
    (∀ (fuel : Nat) (line : StringRef) (segments result : ObjFileSegments),
      parse_obj_line fuel line segments = .ok result → result = segments) ∧
    parse_obj_lines 21 "mtllib a.mtl\n# text\n".toList = .ok { segments := [] } := by
  refine ⟨?_, parse_obj_line_unchanged, by decide⟩
  exact parse_obj_lines_loop (orig_str.length + 1 + extra) (orig_str.length + 1 + extra)
    { remaining := orig_str } { segments := [] } (Nat.le_refl _) (by simp only []; omega)

/-! ## TextLinesReader -/

/-- C15 does not hold of the code: a search started at a positive index reads that index
first, and the code starts it at `buffer + extracted_amount`, so the first byte it reads has
the index `extracted_amount`, one past the bytes just read. On the input "ab", newline, "cd"
with approximate size 2 the two attempts read 2 and 4 bytes and their searches start by
reading the indices 2 and 4. -/
theorem search_reads_past_extracted_amount :
    (∀ (buffer : List Char) (past_end : Char) (k : Nat),
      (search_last_line_ending buffer past_end (k + 1)).2.head? = some (k + 1)) ∧
    (read_next_line_chunk (fun _ => 'x') 4 { data := "ab\ncd".toList } 2).map
        (fun text => (text.chunk, text.inspected)) =
      .ok ("ab".toList, [(2, 2), (1, 2), (4, 4), (3, 4), (2, 4)]) := by
  refine ⟨?_, by decide⟩
  intro buffer past_end k
  unfold search_last_line_ending
  split <;> rfl

/-- C12 does not hold of the code: the search for the last line ending first reads the byte
behind the buffer. When that byte is a newline, the input "abcd" read with approximate size 2
comes back as the chunks "ab" and "d": the first chunk does not end before a newline of the
input, the byte "c" is lost, and the chunks joined with a newline are not the input. -/
theorem chunks_lose_a_byte :
    chunks_of_input (fun _ => '\n') 4 "abcd".toList 2 = .ok ["ab".toList, "d".toList] ∧
    join_chunks ["ab".toList, "d".toList] = "ab\nd".toList ∧
    join_chunks ["ab".toList, "d".toList] ≠ "abcd".toList ∧
    (read_next_line_chunk (fun _ => '\n') 4 { data := "abcd".toList } 2).map
        (fun text => (text.chunk, text.stream.pos, text.inspected)) =
      .ok ("ab".toList, 3, [(2, 2)]) := by
  decide

/-! ### The reader when the byte behind the buffer is not a newline -/

theorem join_chunks_cons (chunk : StringRef) (rest : List StringRef) (h : rest ≠ []) :
    join_chunks (chunk :: rest) = chunk ++ '\n' :: join_chunks rest := by
  cases rest with
  | nil => exact absurd rfl h
  | cons next more => rfl

/-- The index at which the search ends is 0 or holds a newline. -/
theorem search_last_line_ending_found (buffer : List Char) (past_end : Char) :
    ∀ start : Nat,
      (search_last_line_ending buffer past_end start).1 ≤ start ∧
      ((search_last_line_ending buffer past_end start).1 = 0 ∨
        buffer_byte buffer past_end (search_last_line_ending buffer past_end start).1 =
          '\n') := by
  intro start
  induction start with
  | zero => exact ⟨Nat.le_refl _, Or.inl rfl⟩
  | succ index ih =>
    by_cases h : buffer_byte buffer past_end (index + 1) = '\n'
    · have heq : (buffer_byte buffer past_end (index + 1) != '\n') = false := by simpa using h
      have hval : search_last_line_ending buffer past_end (index + 1) =
          (index + 1, [index + 1]) := by
        simp only [search_last_line_ending, heq, Bool.false_eq_true, if_false]
      rw [hval]
      exact ⟨Nat.le_refl _, Or.inr h⟩
    · have hne : (buffer_byte buffer past_end (index + 1) != '\n') = true := by simpa using h
      simp only [search_last_line_ending, hne, if_true]
      exact ⟨Nat.le_succ_of_le ih.1, ih.2⟩

theorem read_short (st : IStream) (n : Nat) (heof : st.eofbit = false)
    (hfail : st.failbit = false) (h : (st.data.drop st.pos).length < n) :
    st.read n = (st.data.drop st.pos,
      { st with pos := st.pos + (st.data.drop st.pos).length, eofbit := true,
                failbit := true, last_gcount := (st.data.drop st.pos).length }) := by
  have htake : (st.data.drop st.pos).take n = st.data.drop st.pos :=
    List.take_of_length_le (Nat.le_of_lt h)
  simp only [IStream.read, heof, hfail, Bool.or_self, Bool.false_eq_true, if_false, htake, h,
    if_true]

theorem read_full (st : IStream) (n : Nat) (heof : st.eofbit = false)
    (hfail : st.failbit = false) (h : n ≤ (st.data.drop st.pos).length) :
    st.read n = ((st.data.drop st.pos).take n,
      { st with pos := st.pos + n, last_gcount := n }) := by
  have hlen : ((st.data.drop st.pos).take n).length = n := by
    rw [List.length_take]
    omega
  simp only [IStream.read, heof, hfail, Bool.or_self, Bool.false_eq_true, if_false, hlen,
    Nat.lt_irrefl]

theorem seekg_good (st : IStream) (hfail : st.failbit = false) (target : Nat) :
    st.seekg (target : Int) = { st with eofbit := false, pos := target } := by
  have hneg : ¬ ((target : Int) < 0) := by omega
  simp only [IStream.seekg, hfail, Bool.false_eq_true, if_false, hneg, Int.toNat_natCast]

theorem seekg_cur_good (st : IStream) (hfail : st.failbit = false) (off : Int) (target : Nat)
    (h : (st.pos : Int) + off = target) :
    st.seekg_cur off = { st with eofbit := false, pos := target } := by
  unfold IStream.seekg_cur
  rw [h]
  exact seekg_good st hfail target

/-- One call of read_next_line_chunk_internal on a good stream, when the byte behind the
buffer is never a newline and the input is shorter than 2^31 bytes: the call returns; either
it has met the end of the input and the chunk is all that remained, or the chunk is followed in
the input by a newline and the stream stands right behind that newline. -/
theorem read_next_line_chunk_internal_spec (heap : Nat → Char) (hheap : ∀ n, heap n ≠ '\n')
    (input : List Char) (hlen : input.length < 2 ^ 31) :
    ∀ (fuel : Nat) (st : IStream) (approximate_size : Nat) (inspected : List (Nat × Nat)),
      st.data = input → st.eofbit = false → st.failbit = false → st.pos ≤ input.length →
      1 ≤ fuel →
      input.length - st.pos + 2 ≤ fuel + max 1 (approximate_size % 2 ^ 32) →
      ∃ text, read_next_line_chunk_internal heap fuel st approximate_size inspected =
          .ok text ∧
        text.stream.data = input ∧
        ((text.stream.eofbit = true ∧ text.chunk = input.drop st.pos) ∨
          (text.stream.eofbit = false ∧ text.stream.failbit = false ∧
            text.stream.pos = st.pos + text.chunk.length + 1 ∧
            text.stream.pos ≤ input.length ∧
            input.drop st.pos = text.chunk ++ '\n' :: input.drop text.stream.pos)) := by
  intro fuel
  induction fuel with
  | zero => intro st a inspected _ _ _ _ h; omega
  | succ fuel ih =>
    intro st a inspected hdata heof hfail hpos _ hfuel
    have hremlen : (st.data.drop st.pos).length = input.length - st.pos := by
      rw [hdata, List.length_drop]
    have htell : st.tellg = st.pos := by simp [IStream.tellg, hfail]
    by_cases hshort : (st.data.drop st.pos).length < max 1 (a % 2 ^ 32)
    · -- the read meets the end of the input
      have hno : ¬ 2 ^ 31 ≤ (st.data.drop st.pos).length := by omega
      unfold read_next_line_chunk_internal
      simp only [read_short st _ heof hfail hshort, IStream.gcount, IStream.eof, hno, if_false,
        if_true, List.take_length]
      exact ⟨_, rfl, hdata, Or.inl ⟨rfl, by rw [hdata]⟩⟩
    · -- the read fills the buffer
      have hfull : max 1 (a % 2 ^ 32) ≤ (st.data.drop st.pos).length := Nat.le_of_not_lt hshort
      generalize hn : max 1 (a % 2 ^ 32) = n at hfull hfuel hshort
      have hn1 : 1 ≤ n := by omega
      have hno : ¬ 2 ^ 31 ≤ n := by omega
      have hbuflen : ((st.data.drop st.pos).take n).length = n := by
        rw [List.length_take]
        omega
      obtain ⟨hle, hcase⟩ :=
        search_last_line_ending_found ((st.data.drop st.pos).take n) (heap n) n
      unfold read_next_line_chunk_internal
      simp only [hn, read_full st _ heof hfail hfull, IStream.gcount, IStream.eof, hno,
        if_false, heof, Bool.false_eq_true]
      by_cases hzero :
          (search_last_line_ending ((st.data.drop st.pos).take n) (heap n) n).1 = 0
      · -- a single line so far: try again with the doubled size
        simp only [hzero, beq_self_eq_true, if_true, htell]
        have hseek := seekg_good (IStream.mk st.data (st.pos + n) false st.failbit n) hfail
          st.pos
        rw [hseek]
        have hdouble : n * 2 % 2 ^ 32 = n * 2 := by omega
        obtain ⟨text, hrun, hres⟩ := ih
          { data := st.data, pos := st.pos, eofbit := false, failbit := st.failbit,
            last_gcount := n }
          (n * 2 % 2 ^ 32)
          (inspected ++ List.map (fun index => (index, n))
            (search_last_line_ending ((st.data.drop st.pos).take n) (heap n) n).2)
          hdata rfl hfail hpos (by omega)
          (by rw [hdouble, hdouble]; simp only []; omega)
        exact ⟨text, hrun, hres⟩
      · -- a line ending was found at a positive index
        have hfound := hcase.resolve_left hzero
        generalize hi : (search_last_line_ending ((st.data.drop st.pos).take n) (heap n) n).1
          = i at hle hzero hfound
        have hin : i < n := by
          rcases Nat.lt_or_ge i n with h | h
          · exact h
          · have hieq : i = n := Nat.le_antisymm hle h
            rw [hieq, buffer_byte, List.getElem?_eq_none (by omega)] at hfound
            exact absurd hfound (hheap n)
        have hnewline : (st.data.drop st.pos)[i]? = some '\n' := by
          rw [buffer_byte, List.getElem?_take_of_lt hin] at hfound
          cases hget : (st.data.drop st.pos)[i]? with
          | none =>
            rw [List.getElem?_eq_none_iff] at hget
            omega
          | some c =>
            rw [hget] at hfound
            rw [← hfound]
        have hbeq : (i == 0) = false := by simpa using hzero
        simp only [hbeq, Bool.false_eq_true, if_false]
        have hseek := seekg_cur_good (IStream.mk st.data (st.pos + n) false st.failbit n)
          hfail ((i : Int) - (n : Int) + 1) (st.pos + i + 1)
          (by simp only []; push_cast; omega)
        rw [hseek]
        have hchunk : ((st.data.drop st.pos).take n).take i = (st.data.drop st.pos).take i := by
          rw [List.take_take, Nat.min_eq_left (Nat.le_of_lt hin)]
        have hchunklen : ((st.data.drop st.pos).take i).length = i := by
          rw [List.length_take]
          omega
        refine ⟨_, rfl, hdata, Or.inr ⟨rfl, hfail, ?_, ?_, ?_⟩⟩
        · simp only [hchunk, hchunklen]
        · simp only []
          omega
        · have hilt : i < (st.data.drop st.pos).length := by omega
          have hsplit := List.take_append_drop i (st.data.drop st.pos)
          rw [List.drop_eq_getElem_cons hilt] at hsplit
          have hchar : (st.data.drop st.pos)[i] = '\n' := by
            rw [List.getElem?_eq_getElem hilt] at hnewline
            exact Option.some.inj hnewline
          rw [hchar, List.drop_drop] at hsplit
          subst hdata
          simp only [hchunk]
          rw [show st.pos + i + 1 = st.pos + (i + 1) by omega]
          exact hsplit.symm

/-- The loop of import_obj on a good stream, when the byte behind the buffer is never a
newline and the input is shorter than 2^31 bytes: the chunks it reads, joined with a newline
between consecutive chunks, are what remained of the input. -/
theorem read_chunks_spec (heap : Nat → Char) (hheap : ∀ n, heap n ≠ '\n')
    (input : List Char) (hlen : input.length < 2 ^ 31) (approximate_size : Nat) :
    ∀ (m fuel inner : Nat) (st : IStream) (chunks : List StringRef),
      st.data = input → st.eofbit = false → st.failbit = false → st.pos ≤ input.length →
      input.length - st.pos ≤ m → m + 2 ≤ fuel → input.length + 2 ≤ inner →
      ∃ found, read_chunks heap approximate_size inner fuel st chunks =
          .ok (chunks ++ found) ∧
        found ≠ [] ∧ join_chunks found = input.drop st.pos := by
  intro m
  induction m using Nat.strong_induction_on with
  | _ m ih =>
    intro fuel inner st chunks hdata heof hfail hpos hm hfuel hinner
    obtain ⟨f, rfl⟩ : ∃ f, fuel = f + 2 := ⟨fuel - 2, by omega⟩
    obtain ⟨text, hrun, htdata, hcase⟩ :=
      read_next_line_chunk_internal_spec heap hheap input hlen inner st approximate_size []
        hdata heof hfail hpos (by omega) (by omega)
    have hstep : read_chunks heap approximate_size inner (f + 2) st chunks =
        read_chunks heap approximate_size inner (f + 1) text.stream
          (chunks ++ [text.chunk]) := by
      simp only [read_chunks, IStream.eof, heof, Bool.not_false, if_true, bind, Except.bind,
        read_next_line_chunk, hrun]
    rw [hstep]
    rcases hcase with ⟨hteof, hchunk⟩ | ⟨hteof, htfail, htpos, htle, hsplit⟩
    · refine ⟨[text.chunk], ?_, by simp, by rw [hchunk]; rfl⟩
      simp [read_chunks, IStream.eof, hteof, pure, Except.pure]
    · obtain ⟨found, hrec, hne, hjoin⟩ :=
        ih (m - 1) (by omega) (f + 1) inner text.stream (chunks ++ [text.chunk]) htdata
          hteof htfail htle (by omega) (by omega) hinner
      refine ⟨text.chunk :: found, ?_, by simp, ?_⟩
      · rw [hrec, List.append_assoc]
        rfl
      · rw [join_chunks_cons _ _ hne, hjoin, hsplit]

/-- The reader does hand out whole lines when the byte behind the buffer is never a newline
and the input is shorter than 2^31 bytes: for every approximate size the chunks read until
eof() is true, joined with a single newline between consecutive chunks, are the input. -/
theorem chunks_rejoin_when_heap_is_benign (heap : Nat → Char) (hheap : ∀ n, heap n ≠ '\n')
    (input : List Char) (hlen : input.length < 2 ^ 31) (approximate_size extra : Nat) :
    ∃ chunks, chunks_of_input heap (input.length + 2 + extra) input approximate_size =
        .ok chunks ∧
      join_chunks chunks = input := by
  obtain ⟨found, hrun, _, hjoin⟩ :=
    read_chunks_spec heap hheap input hlen approximate_size input.length
      (input.length + 2 + extra) (input.length + 2 + extra) { data := input } [] rfl rfl rfl
      (Nat.zero_le _) (by simp only []; omega) (by omega) (by omega)
  exact ⟨found, hrun, hjoin⟩

end ObjImport
